import Mathlib

/-!
Verification of the unified-diff parsing and suggestion-positioning engine.

This file gives a shallow embedding of the diff-parsing code of the
repository: the line-oriented parser of `workspace/suggestions.py`
(`Sugg.parse_diff`), the stateful parser of `workspace/main.py`
(`Wsp.parse_diff`, method `Workspace.parse_diff`), the summary-string
builder and the out-of-diff file patching loop of `Workspace.suggest`.
Python strings are modelled through their character sequences
(`String.data`), Python `re` patterns are modelled by hand-rolled total
matchers with the same semantics on line input, machine integers are
`Int` (Python integers are unbounded), and the two places where the
code could in principle raise (`added_line_numbers[0]` and
`modified_files[current_file]`) are modelled with `Except`.
-/

namespace PyStr

/-- Model of Python `s.startswith(p)`: prefix test on the character
sequence of the string. -/
def pyStartswith (s p : String) : Bool :=
  p.data.isPrefixOf s.data

/-- Model of Python `s[n:]`: drop the first `n` characters. -/
def pyDropChars (s : String) (n : Nat) : String :=
  ⟨s.data.drop n⟩

/-- Characters treated as whitespace by Python `str.strip()` in its
ASCII range. -/
def pyIsSpace (c : Char) : Bool :=
  c == ' ' || c == '\t' || c == '\n' || c == '\r' || c == '\x0b' || c == '\x0c'

/-- Model of Python `str.strip()`: remove leading and trailing
whitespace characters. -/
def pyStrip (s : String) : String :=
  ⟨((s.data.dropWhile pyIsSpace).reverse.dropWhile pyIsSpace).reverse⟩

/-- Line-boundary characters of Python `str.splitlines()` (besides the
two-character boundary `\r\n`, which is handled separately). -/
def pyIsLineBreak (c : Char) : Bool :=
  c == '\n' || c == '\r' || c == '\x0b' || c == '\x0c' ||
  c == '\x1c' || c == '\x1d' || c == '\x1e' || c == '\x85' ||
  c == '\u2028' || c == '\u2029'

/-- Worker for `pySplitlines`, accumulating the current (reversed)
line. -/
def pySplitlinesAux : List Char → List Char → List (List Char)
  | [], acc => if acc.isEmpty then [] else [acc.reverse]
  | '\r' :: '\n' :: rest, acc => acc.reverse :: pySplitlinesAux rest []
  | c :: rest, acc =>
    if pyIsLineBreak c then acc.reverse :: pySplitlinesAux rest []
    else pySplitlinesAux rest (c :: acc)

/-- Model of Python `str.splitlines()`: split at line boundaries, with
no trailing empty line for a trailing newline. -/
def pySplitlines (s : String) : List String :=
  (pySplitlinesAux s.data []).map fun cs => ⟨cs⟩

end PyStr

namespace Sugg

open PyStr

/-- The `CodeSuggestion` dataclass of `workspace/suggestions.py`. -/
structure CodeSuggestion where
  file : String
  line : Int
  suggestion : List String
deriving Repr, DecidableEq

/-- Model of `re.match` for the pattern of
`file_regex = r"^\+\+\+ b/(.+)"` in `workspace/suggestions.py`: the
line must start with the literal marker and have at least one further
character; the group is the rest of the line. -/
def suggFileMatch (line : String) : Option String :=
  match line.data with
  | '+' :: '+' :: '+' :: ' ' :: 'b' :: '/' :: rest =>
    if rest.isEmpty then none else some ⟨rest⟩
  | _ => none

/-- Numeric value of a digit run, as computed by Python `int()`. -/
def digitsVal (ds : List Char) : Nat :=
  ds.foldl (fun n c => n * 10 + (c.toNat - 48)) 0

/-- All numbers standing right after an occurrence of the two-character
pattern `" +"`, scanned left to right.  Used to model the backtracking
of the greedy `.*` in `line_regex = r"^@@ .* \+(\d+),?"`: the greedy
star makes the group come from the rightmost such occurrence. -/
def findPlusNums : List Char → List Nat
  | [] => []
  | c :: rest =>
    match c, rest with
    | ' ', '+' :: r2 =>
      let ds := r2.takeWhile Char.isDigit
      if ds.isEmpty then findPlusNums rest else digitsVal ds :: findPlusNums rest
    | _, _ => findPlusNums rest

/-- Model of `re.match` for
`line_regex = r"^@@ .* \+(\d+),?"` in `workspace/suggestions.py`: the
line starts with `"@@ "` and the group is the digit run after the last
`" +"` occurrence that is followed by a digit. -/
def lineRegexMatch (line : String) : Option Nat :=
  match line.data with
  | '@' :: '@' :: ' ' :: rest => (findPlusNums rest).getLast?
  | _ => none

/-- Loop state of `parse_diff` in `workspace/suggestions.py`. -/
structure St where
  suggestions : List CodeSuggestion
  current_file : String
  current_line : Int
  new_code : List String
  removal_reached : Bool
deriving Repr

/-- One iteration of the `for line in diff_text.splitlines()` loop of
`parse_diff` in `workspace/suggestions.py`. -/
def step (st : St) (line : String) : St :=
  match suggFileMatch line with
  | some f => { st with current_file := f }
  | none =>
    match lineRegexMatch line with
    | some n =>
      { st with current_line := (n : Int) - 1, new_code := [], removal_reached := false }
    | none =>
      if pyStartswith line "+" && !pyStartswith line "+++" then
        { st with new_code := st.new_code ++ [pyDropChars line 1] }
      else
        let st :=
          if !st.removal_reached then { st with current_line := st.current_line + 1 }
          else st
        if pyStartswith line "-" && !pyStartswith line "---" then
          let st :=
            if !st.new_code.isEmpty && !(st.current_file == "") then
              { st with
                suggestions := st.suggestions ++
                  [⟨st.current_file, st.current_line, st.new_code⟩],
                new_code := [] }
            else st
          { st with removal_reached := true }
        else st

/-- The function `parse_diff` of `workspace/suggestions.py`. -/
def parse_diff (diff_text : String) : List CodeSuggestion :=
  let final := (pySplitlines diff_text).foldl step ⟨[], "", 0, [], false⟩
  if !final.new_code.isEmpty && !(final.current_file == "") then
    final.suggestions ++ [⟨final.current_file, final.current_line, final.new_code⟩]
  else final.suggestions

end Sugg

namespace Wsp

open PyStr

/-- The `CodeSuggestion` dataclass of `workspace/main.py`. -/
structure CodeSuggestion where
  file : String
  line : Int
  suggestion : List String
  position : Int
  diff_hunk : String
  is_in_diff : Bool := false
deriving Repr, DecidableEq

/-- Everything after the first occurrence of `" b/"` in a split
produced by `splitOnBStr`, i.e. the parts after the first separator
joined back with the separator. -/
def joinBStr : List (List Char) → List Char
  | [] => []
  | [x] => x
  | x :: y :: t => x ++ ' ' :: 'b' :: '/' :: joinBStr (y :: t)

/-- Split a character list at every non-overlapping occurrence of the
three-character separator `" b/"`, scanning left to right. -/
def splitOnBStr : List Char → List (List Char)
  | [] => [[]]
  | ' ' :: 'b' :: '/' :: rest => [] :: splitOnBStr rest
  | c :: rest =>
    match splitOnBStr rest with
    | [] => [[c]]
    | h :: t => (c :: h) :: t

/-- Model of `re.match` for
`file_regex = r"^diff --git a/.*? b/(.*?)$"` in `workspace/main.py`:
the line must start with `"diff --git a/"` and contain `" b/"` after
that marker; the lazy `.*?` makes the group everything after the first
such occurrence (the final lazy group is forced to the end of the line
by `$`). -/
def fileHeaderMatch (line : String) : Option String :=
  if pyStartswith line "diff --git a/" then
    match splitOnBStr (line.data.drop 13) with
    | [] => none
    | [_] => none
    | _ :: t => some ⟨joinBStr t⟩
  else none

/-- Consume an optional `,`-plus-digits group, as matched by the greedy
`(?:,\d+)?` in the hunk-header pattern: it is consumed only when the
comma is immediately followed by at least one digit. -/
def chompOptComma : List Char → List Char
  | ',' :: c :: rest =>
    if c.isDigit then (c :: rest).dropWhile Char.isDigit else ',' :: c :: rest
  | l => l

/-- Model of `re.match` for
`hunk_regex = r"^@@ -(\d+)(?:,\d+)? \+(\d+)(?:,\d+)? @@.*$"` in
`workspace/main.py`, returning the original-start and new-start
numbers. -/
def hunkHeaderMatch (line : String) : Option (Nat × Nat) :=
  match line.data with
  | '@' :: '@' :: ' ' :: '-' :: rest =>
    let ds1 := rest.takeWhile Char.isDigit
    if ds1.isEmpty then none
    else
      match chompOptComma (rest.dropWhile Char.isDigit) with
      | ' ' :: '+' :: r3 =>
        let ds2 := r3.takeWhile Char.isDigit
        if ds2.isEmpty then none
        else
          match chompOptComma (r3.dropWhile Char.isDigit) with
          | ' ' :: '@' :: '@' :: _ => some (Sugg.digitsVal ds1, Sugg.digitsVal ds2)
          | _ => none
      | _ => none
  | _ => none

/-- Loop state of `Workspace.parse_diff` in `workspace/main.py`.  The
dictionary `modified_files` (file path to set of modified new-file
line numbers) is modelled as an insertion-ordered association list. -/
structure PState where
  suggestions : List CodeSuggestion
  current_file : String
  current_hunk_start_line : Int
  position_in_hunk : Int
  added_lines : List String
  added_line_numbers : List Int
  current_diff_hunk : List String
  modified_files : List (String × List Int)
  removed_line : Option String
  removed_line_number : Int
deriving Repr

/-- `k in d` for the modelled dictionary. -/
def dictHasKey (d : List (String × List Int)) (k : String) : Bool :=
  d.any fun p => p.1 == k

/-- `if k not in d: d[k] = set()` for the modelled dictionary. -/
def dictEnsureKey (d : List (String × List Int)) (k : String) : List (String × List Int) :=
  if dictHasKey d k then d else d ++ [(k, [])]

/-- `d[k].add(n)` for the modelled dictionary; `none` models the
`KeyError` raised when the key is absent. -/
def dictAddLine (d : List (String × List Int)) (k : String) (n : Int) :
    Option (List (String × List Int)) :=
  if dictHasKey d k then
    some (d.map fun p =>
      if p.1 == k then (p.1, if p.2.contains n then p.2 else p.2 ++ [n]) else p)
  else none

/-- `n in d[k]` (with `k in d`) for the modelled dictionary. -/
def dictLineMem (d : List (String × List Int)) (k : String) (n : Int) : Bool :=
  d.any fun p => p.1 == k && p.2.contains n

/-- Python `lst[-10:]`: the last ten elements. -/
def lastTen (l : List String) : List String :=
  l.drop (l.length - 10)

/-- The suggestion record appended by `Workspace.parse_diff` when a
pending addition block is closed with anchor line `n` and position
`pos`. -/
def mkSuggestion (s : PState) (n : Int) (pos : Int) : CodeSuggestion :=
  { file := s.current_file
    line := n
    suggestion := s.added_lines
    position := pos
    diff_hunk := String.intercalate "\n" (lastTen s.current_diff_hunk)
    is_in_diff := false }

/-- The block-closing code of `Workspace.parse_diff`
(`if added_lines and current_file and current_diff_hunk: ...`): emit a
suggestion anchored at `added_line_numbers[0]` with the supplied
position and reset the pending block.  The `error` case models the
`IndexError` of `added_line_numbers[0]` on an empty list. -/
def emitPending (pos : Int) (s : PState) : Except String PState :=
  if !s.added_lines.isEmpty && !(s.current_file == "") && !s.current_diff_hunk.isEmpty then
    match s.added_line_numbers with
    | [] => .error "IndexError"
    | n :: _ =>
      .ok { s with
        suggestions := s.suggestions ++ [mkSuggestion s n pos]
        added_lines := []
        added_line_numbers := [] }
  else .ok s

/-- The `# Track modified lines ...` block of `Workspace.parse_diff`:
update the new-file line counter, the removed-line pair tracking and
the modified-line sets for a non-header line.  `error` models the
`KeyError` of `modified_files[current_file]`. -/
def trackModified (line : String) (s : PState) : Except String PState :=
  if !(s.current_file == "") && s.position_in_hunk > 0 then
    if pyStartswith line "-" && !pyStartswith line "---" then
      .ok { s with
        removed_line := some (pyDropChars line 1)
        removed_line_number := s.removed_line_number + 1 }
    else if pyStartswith line "+" && !pyStartswith line "+++" then
      let current_line_number := s.current_hunk_start_line + 1
      match dictAddLine s.modified_files s.current_file current_line_number with
      | none => .error "KeyError"
      | some d =>
        let s := { s with modified_files := d }
        let s := if s.removed_line.isSome then { s with removed_line := none } else s
        .ok { s with current_hunk_start_line := s.current_hunk_start_line + 1 }
    else
      if !pyStartswith line "\\" then
        .ok { s with
          current_hunk_start_line := s.current_hunk_start_line + 1
          removed_line_number := s.removed_line_number + 1
          removed_line := none }
      else .ok s
  else .ok s

/-- The `# Collect added lines` block of `Workspace.parse_diff`: an
addition line with non-whitespace content is appended to the pending
block (recording the anchor line number when the block opens); any
other line closes a pending block with position
`position_in_hunk - len(added_lines)`. -/
def collectAdded (line : String) (s : PState) : Except String PState :=
  if pyStartswith line "+" && !pyStartswith line "+++" then
    let content := pyDropChars line 1
    if !(pyStrip content == "") then
      let s :=
        if s.added_lines.isEmpty then
          { s with added_line_numbers := s.added_line_numbers ++ [s.current_hunk_start_line] }
        else s
      .ok { s with added_lines := s.added_lines ++ [content] }
    else .ok s
  else
    emitPending (s.position_in_hunk - s.added_lines.length) s

/-- One iteration of the `while i < len(lines)` loop of
`Workspace.parse_diff`: file-header branch, hunk-header branch, or the
fall-through handling (hunk collection, position tracking, modified
tracking, addition collection). -/
def stepLine (line : String) (s : PState) : Except String PState :=
  match fileHeaderMatch line with
  | some f =>
    match emitPending s.position_in_hunk s with
    | .error e => .error e
    | .ok s =>
      .ok { s with
        current_file := f
        modified_files := dictEnsureKey s.modified_files f
        current_diff_hunk := []
        removed_line := none
        removed_line_number := 0 }
  | none =>
    match hunkHeaderMatch line with
    | some (original_start, new_start) =>
      match emitPending s.position_in_hunk s with
      | .error e => .error e
      | .ok s =>
        .ok { s with
          current_hunk_start_line := (new_start : Int) - 1
          position_in_hunk := 1
          current_diff_hunk := [line]
          removed_line := none
          removed_line_number := (original_start : Int) - 1 }
    | none =>
      let s :=
        if !s.current_diff_hunk.isEmpty then
          { s with current_diff_hunk := s.current_diff_hunk ++ [line] }
        else s
      let s :=
        if s.position_in_hunk > 0 then { s with position_in_hunk := s.position_in_hunk + 1 }
        else s
      match trackModified line s with
      | .error e => .error e
      | .ok s => collectAdded line s

/-- The loop of `Workspace.parse_diff` over all lines. -/
def runLines : List String → PState → Except String PState
  | [], s => .ok s
  | l :: ls, s =>
    match stepLine l s with
    | .error e => .error e
    | .ok s => runLines ls s

/-- The initial state of `Workspace.parse_diff`. -/
def initState : PState :=
  { suggestions := []
    current_file := ""
    current_hunk_start_line := 0
    position_in_hunk := 0
    added_lines := []
    added_line_numbers := []
    current_diff_hunk := []
    modified_files := []
    removed_line := none
    removed_line_number := 0 }

/-- The `# Handle any remaining added lines at the end of the file`
block of `Workspace.parse_diff`: close a pending block with position
`position_in_hunk - len(added_lines) + 1`. -/
def finishParse (s : PState) : Except String PState :=
  emitPending (s.position_in_hunk - s.added_lines.length + 1) s

/-- The final classification loop of `Workspace.parse_diff`:
`suggestion.is_in_diff = suggestion.file in modified_files and
suggestion.line in modified_files[suggestion.file]`. -/
def classify (s : PState) : List CodeSuggestion :=
  s.suggestions.map fun sug =>
    { sug with
      is_in_diff := dictHasKey s.modified_files sug.file &&
        dictLineMem s.modified_files sug.file sug.line }

/-- The method `Workspace.parse_diff` of `workspace/main.py`. -/
def parse_diff (diff_text : String) : Except String (List CodeSuggestion) :=
  match runLines (pySplitlines diff_text) initState with
  | .error e => .error e
  | .ok s =>
    match finishParse s with
    | .error e => .error e
    | .ok s => .ok (classify s)

/-- Is `line` an addition line in the sense of `Workspace.parse_diff`
(starts with `+` but not with `+++`)? -/
def isAddLine (line : String) : Bool :=
  pyStartswith line "+" && !pyStartswith line "+++"

/-- Is `line` a file header or a hunk header for `Workspace.parse_diff`? -/
def isHeaderLine (line : String) : Bool :=
  (fileHeaderMatch line).isSome || (hunkHeaderMatch line).isSome

/-- Ghost metadata recorded for one emitted suggestion:
the `newStart` of the hunk header most recently seen when the
suggestion was emitted, the `position_in_hunk` value that the first
collected addition line of its block received, and whether the block
was closed by a file or hunk header (as opposed to an ordinary line or
end of input). -/
structure GMeta where
  gNewStart : Int
  gFirstPos : Option Int
  gByHeader : Bool
deriving Repr, DecidableEq

/-- Ghost state carried alongside `PState`: the `newStart` of the most
recent hunk header, the recorded position of the first collected line
of the pending block, and the metadata of the suggestions emitted so
far. -/
structure Ghost where
  hunk_new_start : Int
  block_first_pos : Option Int
  metas : List GMeta
deriving Repr

/-- Ghost bookkeeping for one parser step: purely observational — it
reads the line, the pre-state and the post-state of `stepLine` and
never influences them. -/
def ghostUpdate (line : String) (s s' : PState) (g : Ghost) : Ghost :=
  { hunk_new_start :=
      match hunkHeaderMatch line with
      | some p => (p.2 : Int)
      | none => g.hunk_new_start
    block_first_pos :=
      if s'.added_lines.isEmpty then none
      else if s.added_lines.isEmpty then some s'.position_in_hunk
      else g.block_first_pos
    metas :=
      if s.suggestions.length < s'.suggestions.length then
        g.metas ++ [⟨g.hunk_new_start, g.block_first_pos, isHeaderLine line⟩]
      else g.metas }

/-- `stepLine` paired with its ghost bookkeeping. -/
def gStep (line : String) (sg : PState × Ghost) : Except String (PState × Ghost) :=
  match stepLine line sg.1 with
  | .error e => .error e
  | .ok s' => .ok (s', ghostUpdate line sg.1 s' sg.2)

/-- `runLines` paired with its ghost bookkeeping. -/
def gRun : List String → PState × Ghost → Except String (PState × Ghost)
  | [], sg => .ok sg
  | l :: ls, sg =>
    match gStep l sg with
    | .error e => .error e
    | .ok sg => gRun ls sg

/-- `finishParse` paired with its ghost bookkeeping (an end-of-input
close is not a header close). -/
def gFinish (sg : PState × Ghost) : Except String (PState × Ghost) :=
  match finishParse sg.1 with
  | .error e => .error e
  | .ok s' =>
    .ok (s',
      { sg.2 with
        metas :=
          if sg.1.suggestions.length < s'.suggestions.length then
            sg.2.metas ++ [⟨sg.2.hunk_new_start, sg.2.block_first_pos, false⟩]
          else sg.2.metas })

/-- `parse_diff` paired with its ghost bookkeeping: returns the
suggestions together with one `GMeta` record per suggestion. -/
def gParse (diff_text : String) : Except String (List CodeSuggestion × List GMeta) :=
  match gRun (pySplitlines diff_text) (initState, ⟨0, none, []⟩) with
  | .error e => .error e
  | .ok sg =>
    match gFinish sg with
    | .error e => .error e
    | .ok (s, g) => .ok (classify s, g.metas)

/-- Well-formedness of a line list for the structural claims, tracked
with two flags: `fileSeen` (a file header with a non-empty extracted
path has been seen, and every file header so far had a non-empty
path) and `hunkSinceFile` (a hunk header has been seen since the most
recent file header).  The predicate requires every addition line to
occur after a non-empty-path file header and after a hunk header of
the current file, and every file header to carry a non-empty path. -/
def wfLines : List String → Bool → Bool → Bool
  | [], _, _ => true
  | l :: ls, fileSeen, hunkSinceFile =>
    match fileHeaderMatch l with
    | some f => !(f == "") && wfLines ls true false
    | none =>
      match hunkHeaderMatch l with
      | some _ => wfLines ls fileSeen fileSeen
      | none =>
        if isAddLine l then fileSeen && hunkSinceFile && wfLines ls fileSeen hunkSinceFile
        else wfLines ls fileSeen hunkSinceFile

/-- No addition line of the input has whitespace-only content. -/
def noWsAdds (ls : List String) : Bool :=
  ls.all fun l => !isAddLine l || !(pyStrip (pyDropChars l 1) == "")

/-- Every addition line of the input has whitespace-only content. -/
def allAddsWs (ls : List String) : Bool :=
  ls.all fun l => !isAddLine l || pyStrip (pyDropChars l 1) == ""

/-- The per-suggestion body of the out-of-diff application loop of
`Workspace.suggest` (`workspace/main.py`): compute the zero-based
index, and when it is in range pop the line at it and insert the
suggestion lines (in reverse, each at the same index) in its place;
out-of-range suggestions leave the lines unchanged. -/
def applyOneSuggestion (lines : List String) (sug : CodeSuggestion) : List String :=
  let line_idx : Int := sug.line - 1
  if 0 ≤ line_idx ∧ line_idx < (lines.length : Int) then
    let popped := lines.eraseIdx line_idx.toNat
    sug.suggestion.reverse.foldl (fun acc l => List.insertIdx line_idx.toNat l acc) popped
  else lines

/-- The per-file out-of-diff application of `Workspace.suggest`: split
the fetched content into lines, sort the file's suggestions by line
number in descending order (Python `list.sort` is stable), apply each
suggestion, and join the lines back with newlines. -/
def applyFileSuggestions (current_content : String) (file_suggestions : List CodeSuggestion) :
    String :=
  let lines := pySplitlines current_content
  let sorted := file_suggestions.mergeSort fun a b => decide (b.line ≤ a.line)
  String.intercalate "\n" (sorted.foldl applyOneSuggestion lines)

/-- The `', '.join([f'#{pr_num}' for pr_num in created_prs])` part of
the summary of `Workspace.suggest`. -/
def prList (created_prs : List Nat) : String :=
  String.intercalate ", " (created_prs.map fun n => "#" ++ toString n)

/-- The `# Build the result message` block of `Workspace.suggest`
(`workspace/main.py`), as a function of the counters it reads: the
number of suggestions posted inline, the number posted as fallback
issue comments, the list of created PR numbers, the number of
out-of-diff suggestions, and the created branch name. -/
def buildResult (successful_suggestions fallback_suggestions : Nat) (created_prs : List Nat)
    (out_of_diff_count : Nat) (branch_name : String) : String :=
  let result := "Posted " ++ toString successful_suggestions ++
    " suggestions directly as review comments"
  let result :=
    if fallback_suggestions > 0 then
      result ++ ", " ++ toString fallback_suggestions ++ " as regular comments"
    else result
  if created_prs.length > 0 then
    result ++ ". Created " ++ toString created_prs.length ++
      " PR(s) for suggestions outside the diff: " ++ prList created_prs
  else if out_of_diff_count > 0 then
    result ++ ". Created branch '" ++ branch_name ++ "' for " ++
      toString out_of_diff_count ++ " suggestions outside the diff"
  else result

/-- The summary form asserted by the specification, written from the
spec's words for comparison with `buildResult`:
`"Posted <N> suggestions directly, <M> as regular comments, skipped
<K> suggestions not in diff"`. -/
def specSummaryForm (n m k : Nat) : String :=
  "Posted " ++ toString n ++ " suggestions directly, " ++ toString m ++
    " as regular comments, skipped " ++ toString k ++ " suggestions not in diff"

/-- The summary form of the amended claim, written from the amended
claim's words as a concatenation of independent segments: the base
segment always says `"Posted <N> suggestions directly as review
comments"`, a `", <M> as regular comments"` segment appears exactly
when `M > 0`, and the tail segment enumerates created PRs when any
exist, else names the created branch when out-of-diff suggestions
exist, else is empty; no `"skipped"` clause exists. -/
def amendedSummaryForm (n m : Nat) (prs : List Nat) (k : Nat) (branch : String) : String :=
  String.join
    ["Posted " ++ toString n ++ " suggestions directly as review comments",
     if m > 0 then ", " ++ toString m ++ " as regular comments" else "",
     if prs.length > 0 then
       ". Created " ++ toString prs.length ++ " PR(s) for suggestions outside the diff: " ++
         String.intercalate ", " (prs.map fun p => "#" ++ toString p)
     else if k > 0 then
       ". Created branch '" ++ branch ++ "' for " ++ toString k ++
         " suggestions outside the diff"
     else ""]

/-- The `# Collect the diff hunk` line of `Workspace.parse_diff`
(`if current_diff_hunk: current_diff_hunk.append(line)`), named so the
non-header branch of `stepLine` can be reasoned about piecewise. -/
def hunkCollect (line : String) (s : PState) : PState :=
  if !s.current_diff_hunk.isEmpty then
    { s with current_diff_hunk := s.current_diff_hunk ++ [line] }
  else s

/-- The `# Track position for each line after a hunk header` line of
`Workspace.parse_diff` (`if position_in_hunk > 0: position_in_hunk +=
1`), named so the non-header branch of `stepLine` can be reasoned
about piecewise. -/
def posBump (s : PState) : PState :=
  if s.position_in_hunk > 0 then { s with position_in_hunk := s.position_in_hunk + 1 }
  else s

/-- Facts that hold of every suggestion ever emitted by
`Workspace.parse_diff`: its content list is non-empty and every
content line has non-whitespace text. -/
def goodSuggestion (sug : CodeSuggestion) : Prop :=
  sug.suggestion ≠ [] ∧ ∀ c ∈ sug.suggestion, pyStrip c ≠ ""

/-- The basic data invariant of the `Workspace.parse_diff` loop state:
the anchor-number list is non-empty whenever the pending block is
(so `added_line_numbers[0]` cannot raise), the current file is always
a key of `modified_files` once set (so `modified_files[current_file]`
cannot raise), every emitted suggestion is `goodSuggestion`, and the
pending block holds only non-whitespace content. -/
def MasterInv (s : PState) : Prop :=
  (s.added_lines ≠ [] → s.added_line_numbers ≠ []) ∧
  (s.current_file ≠ "" → dictHasKey s.modified_files s.current_file = true) ∧
  (∀ sug ∈ s.suggestions, goodSuggestion sug) ∧
  (∀ c ∈ s.added_lines, pyStrip c ≠ "")

/-- The `(file, line)` pair is recorded in the modified-line
dictionary. -/
def inModified (d : List (String × List Int)) (file : String) (line : Int) : Prop :=
  dictHasKey d file = true ∧ dictLineMem d file line = true

/-- Invariant for the in-diff claim, relative to the well-formedness
flags of `wfLines`: on top of `MasterInv`, the parser state reflects
the flags (a seen file header means a non-empty current file, a hunk
since the file header means a positive position counter and a
non-empty collected hunk), a pending block can always be closed and
its anchor is already recorded in the modified-line dictionary, and
every emitted suggestion's `(file, line)` is recorded there. -/
def C2Inv (fileSeen hunkSinceFile : Bool) (s : PState) : Prop :=
  MasterInv s ∧
  (fileSeen = true → s.current_file ≠ "") ∧
  (hunkSinceFile = true → 0 < s.position_in_hunk ∧ s.current_diff_hunk ≠ []) ∧
  (s.added_lines = [] → s.added_line_numbers = []) ∧
  (s.added_lines ≠ [] → s.current_file ≠ "" ∧ s.current_diff_hunk ≠ [] ∧
    ∀ n, s.added_line_numbers.head? = some n → inModified s.modified_files s.current_file n) ∧
  (∀ sug ∈ s.suggestions, inModified s.modified_files sug.file sug.line)

/-- Invariant for the hunk-start bound claim, carried through the
ghost-instrumented run: on top of the basic data invariant and the
well-formedness bookkeeping, the new-file line counter never drops
below `newStart - 1` of the most recent hunk, a pending block's anchor
is at least that `newStart`, and every emitted suggestion's line is at
least the `newStart` of the hunk it was emitted from. -/
def C5Inv (fileSeen hunkSinceFile : Bool) (s : PState) (g : Ghost) : Prop :=
  MasterInv s ∧
  (fileSeen = true → s.current_file ≠ "") ∧
  (hunkSinceFile = true → 0 < s.position_in_hunk ∧ s.current_diff_hunk ≠ []) ∧
  (s.added_lines = [] → s.added_line_numbers = []) ∧
  (s.added_lines ≠ [] → s.current_file ≠ "" ∧ s.current_diff_hunk ≠ [] ∧
    ∀ n, s.added_line_numbers.head? = some n → g.hunk_new_start ≤ n) ∧
  g.hunk_new_start - 1 ≤ s.current_hunk_start_line ∧
  g.metas.length = s.suggestions.length ∧
  (∀ p ∈ s.suggestions.zip g.metas, p.2.gNewStart ≤ p.1.line)

/-- Invariant for the position claim, carried through the
ghost-instrumented run over inputs without whitespace-only additions:
a pending block's recorded first position equals
`position_in_hunk - len(added_lines) + 1`, and every emitted
suggestion's recorded first position is its `position` (for blocks
closed by an ordinary line or end of input) or
`position - len + 1` (for blocks closed by a header). -/
def C3Inv (fileSeen hunkSinceFile : Bool) (s : PState) (g : Ghost) : Prop :=
  MasterInv s ∧
  (fileSeen = true → s.current_file ≠ "") ∧
  (hunkSinceFile = true → 0 < s.position_in_hunk ∧ s.current_diff_hunk ≠ []) ∧
  (s.added_lines = [] → s.added_line_numbers = []) ∧
  (s.added_lines ≠ [] → s.current_file ≠ "" ∧ s.current_diff_hunk ≠ [] ∧
    0 < s.position_in_hunk ∧
    g.block_first_pos = some (s.position_in_hunk - s.added_lines.length + 1)) ∧
  g.metas.length = s.suggestions.length ∧
  (∀ p ∈ s.suggestions.zip g.metas,
    p.2.gFirstPos = some (if p.2.gByHeader then p.1.position - p.1.suggestion.length + 1
      else p.1.position))

end Wsp

/-- Decidable equality for `Except` results, so that concrete parser
runs can be checked by `decide`. -/
instance {ε α : Type} [DecidableEq ε] [DecidableEq α] : DecidableEq (Except ε α)
  | .error a, .error b =>
    if h : a = b then .isTrue (by rw [h]) else .isFalse (by intro c; cases c; exact h rfl)
  | .error _, .ok _ => .isFalse (by intro c; cases c)
  | .ok _, .error _ => .isFalse (by intro c; cases c)
  | .ok a, .ok b =>
    if h : a = b then .isTrue (by rw [h]) else .isFalse (by intro c; cases c; exact h rfl)

/-- Appending the empty string on the left is the identity. -/
theorem str_empty_append (s : String) : "" ++ s = s := rfl

/-- C1: on the Scenario A input, whose file header uses the
`+++ b/<path>` form recognised by the parser of
`workspace/suggestions.py`, parsing returns exactly one suggestion for
file `foo.py`, anchored at line 2, with content
`["added1", "added2"]` in that order. -/
theorem c1_scenarioA :
    Sugg.parse_diff "+++ b/foo.py\n@@ -1,2 +1,3 @@\n line1\n+added1\n+added2\n line2\n" =
      [⟨"foo.py", 2, ["added1", "added2"]⟩] := by
  decide

/-- C2 counterexample: for the input
`"+b\ndiff --git a/y b/y\n@@ -1,1 +1,1 @@\n x"`, the parser of
`workspace/main.py` emits a suggestion (built from the addition line
seen before any file header) whose `(file, line)` pair is not in the
modified-line set of the diff itself, so its `is_in_diff` is `false` —
refuting the claim that every emitted suggestion of every diff has
`is_in_diff = true` against its own diff. -/
theorem c2_counterexample :
    Wsp.parse_diff "+b\ndiff --git a/y b/y\n@@ -1,1 +1,1 @@\n x" =
      .ok [⟨"y", 0, ["b"], 1, "@@ -1,1 +1,1 @@\n x", false⟩] := by
  decide

/-- C3 counterexample: for the single-file diff
`"diff --git a/f b/f\n@@ -1,2 +1,3 @@\n line1\n+added1\n+added2\n line2\n"`,
the block's first addition line `+added1` is the second body line of
its hunk, so under the claim's convention (hunk header at position 0,
first body line at position 1) its hunk position is 2 — but the
emitted suggestion carries `position = 3`, refuting the claim. -/
theorem c3_counterexample :
    Wsp.parse_diff "diff --git a/f b/f\n@@ -1,2 +1,3 @@\n line1\n+added1\n+added2\n line2\n" =
      .ok [⟨"f", 2, ["added1", "added2"], 3,
        "@@ -1,2 +1,3 @@\n line1\n+added1\n+added2\n line2", true⟩] ∧
    (3 : Int) ≠ 2 := by
  exact ⟨by decide, by decide⟩

/-- C4 counterexample: the same one-addition diff with and without a
no-newline marker line (`"\ No newline at end of file"`) before the
addition.  The marker increments the `position_in_hunk` counter, so the
emitted suggestion has `position = 3` with the marker but `position =
2` without it (the anchor `line` is 1 in both), refuting the claim
that the marker changes neither coordinate. -/
theorem c4_counterexample :
    Wsp.parse_diff
        "diff --git a/x b/x\n@@ -1,1 +1,2 @@\n\\ No newline at end of file\n+new" =
      .ok [⟨"x", 1, ["new"], 3,
        "@@ -1,1 +1,2 @@\n\\ No newline at end of file\n+new", true⟩] ∧
    Wsp.parse_diff "diff --git a/x b/x\n@@ -1,1 +1,2 @@\n+new" =
      .ok [⟨"x", 1, ["new"], 2, "@@ -1,1 +1,2 @@\n+new", true⟩] ∧
    (3 : Int) ≠ 2 := by
  exact ⟨by decide, by decide, by decide⟩

/-- C6 counterexample: for the input
`"+a\ndiff --git a/x b/x\n@@ -1,1 +1,1 @@\n c"` the addition block
collected before any file header is not silently discarded: once the
first file header and hunk appear it is emitted as a suggestion for
that file (anchored at the stale pre-header line number 0), refuting
the claim that such blocks are discarded. -/
theorem c6_counterexample :
    Wsp.parse_diff "+a\ndiff --git a/x b/x\n@@ -1,1 +1,1 @@\n c" =
      .ok [⟨"x", 0, ["a"], 1, "@@ -1,1 +1,1 @@\n c", false⟩] := by
  decide

/-- C8 counterexample: with one suggestion posted inline, one fallback
comment and no out-of-diff suggestions, the summary built by
`Workspace.suggest` is
`"Posted 1 suggestions directly as review comments, 1 as regular
comments"`, which is not the claimed exact form `"Posted 1 suggestions
directly, 1 as regular comments, skipped 0 suggestions not in diff"`. -/
theorem c8_counterexample :
    Wsp.buildResult 1 1 [] 0 "llm-fix" =
      "Posted 1 suggestions directly as review comments, 1 as regular comments" ∧
    Wsp.buildResult 1 1 [] 0 "llm-fix" ≠ Wsp.specSummaryForm 1 1 0 := by
  exact ⟨by decide, by decide⟩

/-- C8 amended: for all counter values, the summary built by
`Workspace.suggest` equals the amended form: a base segment
`"Posted <N> suggestions directly as review comments"`, a
`", <M> as regular comments"` segment exactly when `M > 0`, and a tail
enumerating created PRs when any exist, else naming the created branch
when out-of-diff suggestions exist; there is no `"skipped"` clause. -/
theorem c8_amended (n m : Nat) (prs : List Nat) (k : Nat) (b : String) :
    Wsp.buildResult n m prs k b = Wsp.amendedSummaryForm n m prs k b := by
  unfold Wsp.buildResult Wsp.amendedSummaryForm Wsp.prList
  simp only [String.join, List.foldl]
  by_cases hm : m > 0 <;> by_cases hp : prs.length > 0 <;> by_cases hk : k > 0 <;>
    simp only [hm, hp, hk, if_true, if_false, ite_true, ite_false,
      String.append_assoc, str_empty_append, String.append_empty]

/-- Inserting at the length of a prefix splices an element between the
prefix and the suffix. -/
theorem insertIdx_append_cons (pre post : List String) (x : String) :
    List.insertIdx pre.length x (pre ++ post) = pre ++ x :: post := by
  induction pre with
  | nil => rfl
  | cons a t ih => simp [List.insertIdx_succ_cons, ih]

/-- Folding the reversed suggestion lines through insertion at a fixed
prefix length splices the whole suggestion between prefix and
suffix — this is what the reversed-insert loop of `Workspace.suggest`
computes. -/
theorem foldl_insertIdx_splice (ss : List String) (pre post : List String) :
    ss.reverse.foldl (fun acc l => List.insertIdx pre.length l acc) (pre ++ post) =
      pre ++ ss ++ post := by
  induction ss generalizing post with
  | nil => simp
  | cons a t ih =>
    rw [List.reverse_cons, List.foldl_append, ih]
    simp only [List.foldl]
    rw [List.append_assoc pre t post, insertIdx_append_cons pre (t ++ post) a]
    simp

/-- C10: in the out-of-diff delivery path of `Workspace.suggest`,
every suggestion is applied to the fetched file lines as a one-line
replacement: when the 1-based `line` is within the file, the single
line at index `line - 1` is removed and the suggestion lines are
inserted in its place (so there is no pure-insertion mode), and when
`line` falls outside `[1, number of lines]` the lines are left
unchanged and no error is raised. -/
theorem c10_one_line_replacement (lines : List String) (sug : Wsp.CodeSuggestion) :
    (1 ≤ sug.line → sug.line ≤ (lines.length : Int) →
      Wsp.applyOneSuggestion lines sug =
        lines.take (sug.line - 1).toNat ++ sug.suggestion ++ lines.drop sug.line.toNat) ∧
    (sug.line < 1 ∨ (lines.length : Int) < sug.line →
      Wsp.applyOneSuggestion lines sug = lines) := by
  constructor
  · intro h1 h2
    have hidx : (sug.line - 1).toNat < lines.length := by omega
    have hcond : 0 ≤ sug.line - 1 ∧ sug.line - 1 < (lines.length : Int) := by omega
    have hlen : (lines.take (sug.line - 1).toNat).length = (sug.line - 1).toNat := by
      rw [List.length_take]
      omega
    have hsplice := foldl_insertIdx_splice sug.suggestion
      (lines.take (sug.line - 1).toNat) (lines.drop ((sug.line - 1).toNat + 1))
    rw [hlen] at hsplice
    have hnat : (sug.line - 1).toNat + 1 = sug.line.toNat := by omega
    show (if 0 ≤ sug.line - 1 ∧ sug.line - 1 < (lines.length : Int) then
        sug.suggestion.reverse.foldl
          (fun acc l => List.insertIdx (sug.line - 1).toNat l acc)
          (lines.eraseIdx (sug.line - 1).toNat)
      else lines) =
      lines.take (sug.line - 1).toNat ++ sug.suggestion ++ lines.drop sug.line.toNat
    rw [if_pos hcond, List.eraseIdx_eq_take_drop_succ, hsplice, hnat]
  · intro h
    rw [Wsp.applyOneSuggestion, if_neg]
    omega

/-- Witness for C10: a concrete in-range application replaces exactly
line 2 of a three-line file with the two suggestion lines, and a
concrete out-of-range application (line 9 of a three-line file)
returns the lines unchanged. -/
theorem c10_witness :
    Wsp.applyOneSuggestion ["l1", "l2", "l3"] ⟨"f", 2, ["a", "b"], 1, "", false⟩ =
      ["l1", "a", "b", "l3"] ∧
    Wsp.applyOneSuggestion ["l1", "l2", "l3"] ⟨"f", 9, ["a"], 1, "", false⟩ =
      ["l1", "l2", "l3"] := by
  constructor
  · have h := (c10_one_line_replacement ["l1", "l2", "l3"]
      ⟨"f", 2, ["a", "b"], 1, "", false⟩).1 (by decide) (by decide)
    rw [h]
    decide
  · exact (c10_one_line_replacement ["l1", "l2", "l3"]
      ⟨"f", 9, ["a"], 1, "", false⟩).2 (by decide)

/-- `dictEnsureKey` makes its key present. -/
theorem dictHasKey_ensure_self (d : List (String × List Int)) (k : String) :
    Wsp.dictHasKey (Wsp.dictEnsureKey d k) k = true := by
  unfold Wsp.dictEnsureKey
  split
  · assumption
  · simp [Wsp.dictHasKey]

/-- `dictEnsureKey` keeps every present key present. -/
theorem dictHasKey_ensure_mono (d : List (String × List Int)) (k k' : String)
    (h : Wsp.dictHasKey d k' = true) :
    Wsp.dictHasKey (Wsp.dictEnsureKey d k) k' = true := by
  unfold Wsp.dictEnsureKey
  split
  · exact h
  · unfold Wsp.dictHasKey at h ⊢
    simp only [List.any_append, Bool.or_eq_true]
    exact Or.inl h

/-- `dictEnsureKey` keeps every recorded pair recorded. -/
theorem dictLineMem_ensure_mono (d : List (String × List Int)) (k k' : String) (n : Int)
    (h : Wsp.dictLineMem d k' n = true) :
    Wsp.dictLineMem (Wsp.dictEnsureKey d k) k' n = true := by
  unfold Wsp.dictEnsureKey
  split
  · exact h
  · unfold Wsp.dictLineMem at h ⊢
    simp only [List.any_append, Bool.or_eq_true]
    exact Or.inl h

/-- `dictAddLine` succeeds exactly on present keys. -/
theorem dictAddLine_isSome (d : List (String × List Int)) (k : String) (n : Int)
    (h : Wsp.dictHasKey d k = true) :
    ∃ d', Wsp.dictAddLine d k n = some d' := by
  unfold Wsp.dictAddLine
  rw [if_pos h]
  exact ⟨_, rfl⟩

/-- The update map of `dictAddLine` does not change which keys are
present. -/
theorem dictMap_hasKey (d : List (String × List Int)) (k k' : String) (n : Int) :
    Wsp.dictHasKey
      (d.map fun p => if p.1 == k then (p.1, if p.2.contains n then p.2 else p.2 ++ [n]) else p)
      k' = Wsp.dictHasKey d k' := by
  unfold Wsp.dictHasKey
  induction d with
  | nil => rfl
  | cons p t ih =>
    simp only [List.map_cons, List.any_cons, ih]
    congr 1
    split <;> rfl

/-- `dictAddLine` does not change which keys are present. -/
theorem dictAddLine_hasKey (d d' : List (String × List Int)) (k k' : String) (n : Int)
    (h : Wsp.dictAddLine d k n = some d') :
    Wsp.dictHasKey d' k' = Wsp.dictHasKey d k' := by
  unfold Wsp.dictAddLine at h
  split at h
  · cases h
    exact dictMap_hasKey d k k' n
  · cases h

/-- `dictAddLine` keeps every recorded pair recorded. -/
theorem dictLineMem_addLine_mono (d d' : List (String × List Int)) (k k' : String) (n n' : Int)
    (h : Wsp.dictAddLine d k n = some d') (hm : Wsp.dictLineMem d k' n' = true) :
    Wsp.dictLineMem d' k' n' = true := by
  unfold Wsp.dictAddLine at h
  split at h
  · cases h
    unfold Wsp.dictLineMem at hm ⊢
    rw [List.any_map]
    rw [List.any_eq_true] at hm ⊢
    obtain ⟨p, hp, hpv⟩ := hm
    refine ⟨p, hp, ?_⟩
    simp only [Function.comp]
    split
    · rename_i heq
      simp only [Bool.and_eq_true, beq_iff_eq] at hpv ⊢
      refine ⟨hpv.1, ?_⟩
      split
      · exact hpv.2
      · rw [List.elem_iff] at hpv ⊢
        exact List.mem_append_left _ hpv.2
    · exact hpv
  · cases h

/-- `dictAddLine` records the added pair. -/
theorem dictAddLine_self (d d' : List (String × List Int)) (k : String) (n : Int)
    (h : Wsp.dictAddLine d k n = some d') :
    Wsp.dictLineMem d' k n = true := by
  unfold Wsp.dictAddLine at h
  split at h
  · cases h
    rename_i hk
    unfold Wsp.dictHasKey at hk
    unfold Wsp.dictLineMem
    rw [List.any_eq_true] at hk ⊢
    obtain ⟨p, hp, hpv⟩ := hk
    refine ⟨(p.1, if p.2.contains n then p.2 else p.2 ++ [n]), ?_, ?_⟩
    · rw [List.mem_map]
      exact ⟨p, hp, by rw [if_pos hpv]⟩
    · simp only [Bool.and_eq_true]
      refine ⟨hpv, ?_⟩
      split
      · assumption
      · rw [List.elem_iff]
        exact List.mem_append_right _ (List.mem_singleton_self n)
  · cases h

/-- Characterization of the block-closing helper: under the basic
index invariant it never raises, it never changes any field but the
suggestion list and the pending block, and it either leaves the state
unchanged or appends exactly the pending block as a suggestion and
clears it. -/
theorem emitPending_spec (pos : Int) (s : Wsp.PState)
    (h1 : s.added_lines ≠ [] → s.added_line_numbers ≠ []) :
    ∃ t, Wsp.emitPending pos s = .ok t ∧
      t.current_file = s.current_file ∧
      t.current_hunk_start_line = s.current_hunk_start_line ∧
      t.position_in_hunk = s.position_in_hunk ∧
      t.current_diff_hunk = s.current_diff_hunk ∧
      t.modified_files = s.modified_files ∧
      t.removed_line = s.removed_line ∧
      t.removed_line_number = s.removed_line_number ∧
      ((t.added_lines = s.added_lines ∧ t.added_line_numbers = s.added_line_numbers ∧
          t.suggestions = s.suggestions ∧
          (s.added_lines = [] ∨ s.current_file = "" ∨ s.current_diff_hunk = [])) ∨
        (t.added_lines = [] ∧ t.added_line_numbers = [] ∧
          s.added_lines ≠ [] ∧ s.current_file ≠ "" ∧ s.current_diff_hunk ≠ [] ∧
          ∃ n rest, s.added_line_numbers = n :: rest ∧
            t.suggestions = s.suggestions ++ [Wsp.mkSuggestion s n pos])) := by
  unfold Wsp.emitPending
  by_cases hc : (!s.added_lines.isEmpty && !(s.current_file == "") &&
      !s.current_diff_hunk.isEmpty) = true
  · rw [if_pos hc]
    simp only [Bool.and_eq_true, Bool.not_eq_true', List.isEmpty_eq_false,
      beq_eq_false_iff_ne] at hc
    obtain ⟨⟨ha, hf⟩, hd⟩ := hc
    have hd' : s.current_diff_hunk ≠ [] := by
      intro hnil
      rw [hnil] at hd
      exact absurd rfl hd
    obtain ⟨n, rest, hnum⟩ : ∃ n rest, s.added_line_numbers = n :: rest := by
      cases hnr : s.added_line_numbers with
      | nil => exact absurd (h1 ha) (by simp [hnr])
      | cons a b => exact ⟨a, b, rfl⟩
    rw [hnum]
    refine ⟨_, rfl, rfl, rfl, rfl, rfl, rfl, rfl, rfl, Or.inr ?_⟩
    exact ⟨rfl, rfl, ha, hf, hd', n, rest, rfl, rfl⟩
  · rw [if_neg hc]
    refine ⟨s, rfl, rfl, rfl, rfl, rfl, rfl, rfl, rfl, Or.inl ⟨rfl, rfl, rfl, ?_⟩⟩
    simp only [Bool.and_eq_true, Bool.not_eq_true', List.isEmpty_eq_false,
      beq_eq_false_iff_ne, not_and_or] at hc
    rcases hc with (hc | hc) | hc
    · exact Or.inl (by simpa using hc)
    · exact Or.inr (Or.inl (by simpa using hc))
    · exact Or.inr (Or.inr (by simpa using hc))

/-- Branch equation for `stepLine` on a file-header line. -/
theorem stepLine_eq_file (l : String) (s : Wsp.PState) (f : String)
    (hfm : Wsp.fileHeaderMatch l = some f) :
    Wsp.stepLine l s =
      match Wsp.emitPending s.position_in_hunk s with
      | .error e => .error e
      | .ok t =>
        .ok { t with
          current_file := f
          modified_files := Wsp.dictEnsureKey t.modified_files f
          current_diff_hunk := []
          removed_line := none
          removed_line_number := 0 } := by
  unfold Wsp.stepLine
  rw [hfm]

/-- Branch equation for `stepLine` on a hunk-header line. -/
theorem stepLine_eq_hunk (l : String) (s : Wsp.PState) (o ns : Nat)
    (hfm : Wsp.fileHeaderMatch l = none) (hhm : Wsp.hunkHeaderMatch l = some (o, ns)) :
    Wsp.stepLine l s =
      match Wsp.emitPending s.position_in_hunk s with
      | .error e => .error e
      | .ok t =>
        .ok { t with
          current_hunk_start_line := (ns : Int) - 1
          position_in_hunk := 1
          current_diff_hunk := [l]
          removed_line := none
          removed_line_number := (o : Int) - 1 } := by
  unfold Wsp.stepLine
  rw [hfm, hhm]

/-- Branch equation for `stepLine` on a non-header line. -/
theorem stepLine_eq_other (l : String) (s : Wsp.PState)
    (hfm : Wsp.fileHeaderMatch l = none) (hhm : Wsp.hunkHeaderMatch l = none) :
    Wsp.stepLine l s =
      match Wsp.trackModified l (Wsp.posBump (Wsp.hunkCollect l s)) with
      | .error e => .error e
      | .ok t => Wsp.collectAdded l t := by
  unfold Wsp.stepLine
  rw [hfm, hhm]
  rfl

/-- `hunkCollect` changes only the collected hunk. -/
theorem hunkCollect_fields (l : String) (s : Wsp.PState) :
    (Wsp.hunkCollect l s).suggestions = s.suggestions ∧
    (Wsp.hunkCollect l s).current_file = s.current_file ∧
    (Wsp.hunkCollect l s).current_hunk_start_line = s.current_hunk_start_line ∧
    (Wsp.hunkCollect l s).position_in_hunk = s.position_in_hunk ∧
    (Wsp.hunkCollect l s).added_lines = s.added_lines ∧
    (Wsp.hunkCollect l s).added_line_numbers = s.added_line_numbers ∧
    (Wsp.hunkCollect l s).modified_files = s.modified_files ∧
    (Wsp.hunkCollect l s).removed_line = s.removed_line ∧
    (Wsp.hunkCollect l s).removed_line_number = s.removed_line_number := by
  unfold Wsp.hunkCollect
  split <;> exact ⟨rfl, rfl, rfl, rfl, rfl, rfl, rfl, rfl, rfl⟩

/-- `hunkCollect` preserves emptiness of the collected hunk. -/
theorem hunkCollect_hunk_empty (l : String) (s : Wsp.PState) :
    ((Wsp.hunkCollect l s).current_diff_hunk = [] ↔ s.current_diff_hunk = []) := by
  unfold Wsp.hunkCollect
  split
  · rename_i hne
    rw [Bool.not_eq_true', List.isEmpty_eq_false] at hne
    constructor
    · intro h
      exact absurd h (by simp)
    · intro h
      exact absurd h hne
  · exact Iff.rfl

/-- `posBump` changes only the position counter. -/
theorem posBump_fields (s : Wsp.PState) :
    (Wsp.posBump s).suggestions = s.suggestions ∧
    (Wsp.posBump s).current_file = s.current_file ∧
    (Wsp.posBump s).current_hunk_start_line = s.current_hunk_start_line ∧
    (Wsp.posBump s).current_diff_hunk = s.current_diff_hunk ∧
    (Wsp.posBump s).added_lines = s.added_lines ∧
    (Wsp.posBump s).added_line_numbers = s.added_line_numbers ∧
    (Wsp.posBump s).modified_files = s.modified_files ∧
    (Wsp.posBump s).removed_line = s.removed_line ∧
    (Wsp.posBump s).removed_line_number = s.removed_line_number := by
  unfold Wsp.posBump
  split <;> exact ⟨rfl, rfl, rfl, rfl, rfl, rfl, rfl, rfl, rfl⟩

/-- `posBump` preserves positivity of the position counter. -/
theorem posBump_pos (s : Wsp.PState) :
    (0 < (Wsp.posBump s).position_in_hunk ↔ 0 < s.position_in_hunk) := by
  unfold Wsp.posBump
  split
  · rename_i h
    constructor
    · intro _
      omega
    · intro _
      show 0 < s.position_in_hunk + 1
      omega
  · exact Iff.rfl

/-- A single-character prefix test reads the first character. -/
theorem pyStartswith_one (l : String) (c : Char) :
    PyStr.pyStartswith l ⟨[c]⟩ =
      match l.data with
      | [] => false
      | d :: _ => c == d := by
  unfold PyStr.pyStartswith
  rcases hl : l.data with _ | ⟨d, rest⟩
  · rfl
  · show List.isPrefixOf [c] (d :: rest) = (c == d)
    simp [List.isPrefixOf]

/-- A line starting with `+` does not start with `-`. -/
theorem plus_not_minus (l : String) (h : PyStr.pyStartswith l "+" = true) :
    PyStr.pyStartswith l "-" = false := by
  rw [show ("+" : String) = ⟨['+']⟩ from rfl, pyStartswith_one] at h
  rw [show ("-" : String) = ⟨['-']⟩ from rfl, pyStartswith_one]
  revert h
  rcases hl : l.data with _ | ⟨d, rest⟩
  · intro h
    exact absurd h (by decide)
  · intro h
    simp only [beq_iff_eq] at h
    subst h
    show (('-' == '+') : Bool) = false
    rfl

/-- Characterization of the modified-line tracking block: under the
key invariant it never raises, it touches only the line counters, the
removed-line pair state and the modified-line dictionary, the
dictionary only grows, and consuming an addition line while tracking
is active bumps the new-file line counter and records exactly that
line for the current file. -/
theorem trackModified_spec (l : String) (s : Wsp.PState)
    (h2 : s.current_file ≠ "" → Wsp.dictHasKey s.modified_files s.current_file = true) :
    ∃ t, Wsp.trackModified l s = .ok t ∧
      t.suggestions = s.suggestions ∧
      t.current_file = s.current_file ∧
      t.position_in_hunk = s.position_in_hunk ∧
      t.current_diff_hunk = s.current_diff_hunk ∧
      t.added_lines = s.added_lines ∧
      t.added_line_numbers = s.added_line_numbers ∧
      (t.current_hunk_start_line = s.current_hunk_start_line ∨
        t.current_hunk_start_line = s.current_hunk_start_line + 1) ∧
      (∀ k, Wsp.dictHasKey t.modified_files k = Wsp.dictHasKey s.modified_files k) ∧
      (∀ k n, Wsp.dictLineMem s.modified_files k n = true →
        Wsp.dictLineMem t.modified_files k n = true) ∧
      (Wsp.isAddLine l = true → s.current_file ≠ "" → 0 < s.position_in_hunk →
        t.current_hunk_start_line = s.current_hunk_start_line + 1 ∧
        Wsp.dictLineMem t.modified_files t.current_file t.current_hunk_start_line = true) := by
  unfold Wsp.trackModified
  split
  · rename_i hg
    have hg' := hg
    simp only [Bool.and_eq_true, Bool.not_eq_true', beq_eq_false_iff_ne,
      decide_eq_true_eq] at hg'
    obtain ⟨hfile, hpos⟩ := hg'
    split
    · rename_i hminus
      refine ⟨_, rfl, rfl, rfl, rfl, rfl, rfl, rfl, Or.inl rfl, fun k => rfl,
        fun k n h => h, ?_⟩
      intro hadd _ _
      unfold Wsp.isAddLine at hadd
      rw [Bool.and_eq_true] at hadd
      rw [plus_not_minus l hadd.1] at hminus
      exact absurd hminus (by simp)
    · rename_i hnminus
      split
      · rename_i hplus
        obtain ⟨d', hd'⟩ := dictAddLine_isSome s.modified_files s.current_file
          (s.current_hunk_start_line + 1) (h2 hfile)
        simp only [hd']
        have hkeys := fun k => dictAddLine_hasKey s.modified_files d' s.current_file k
          (s.current_hunk_start_line + 1) hd'
        have hmono := fun k n hm => dictLineMem_addLine_mono s.modified_files d'
          s.current_file k (s.current_hunk_start_line + 1) n hd' hm
        have hself := dictAddLine_self s.modified_files d' s.current_file
          (s.current_hunk_start_line + 1) hd'
        split
        · exact ⟨_, rfl, rfl, rfl, rfl, rfl, rfl, rfl, Or.inr rfl, hkeys, hmono,
            fun _ _ _ => ⟨rfl, hself⟩⟩
        · exact ⟨_, rfl, rfl, rfl, rfl, rfl, rfl, rfl, Or.inr rfl, hkeys, hmono,
            fun _ _ _ => ⟨rfl, hself⟩⟩
      · rename_i hnplus
        split
        · refine ⟨_, rfl, rfl, rfl, rfl, rfl, rfl, rfl, Or.inr rfl, fun k => rfl,
            fun k n h => h, ?_⟩
          intro hadd _ _
          unfold Wsp.isAddLine at hadd
          exact absurd hadd hnplus
        · refine ⟨s, rfl, rfl, rfl, rfl, rfl, rfl, rfl, Or.inl rfl, fun k => rfl,
            fun k n h => h, ?_⟩
          intro hadd _ _
          unfold Wsp.isAddLine at hadd
          exact absurd hadd hnplus
  · rename_i hg
    refine ⟨s, rfl, rfl, rfl, rfl, rfl, rfl, rfl, Or.inl rfl, fun k => rfl,
      fun k n h => h, ?_⟩
    intro _ hfile hpos
    exact absurd (by simp only [Bool.and_eq_true, Bool.not_eq_true',
      beq_eq_false_iff_ne, decide_eq_true_eq]; exact ⟨hfile, hpos⟩) hg

/-- `collectAdded` on the first kept addition line of a block: records
the anchor line number and opens the block. -/
theorem collectAdded_first (l : String) (s : Wsp.PState)
    (hadd : Wsp.isAddLine l = true)
    (hws : ¬(PyStr.pyStrip (PyStr.pyDropChars l 1) = ""))
    (hempty : s.added_lines = []) :
    Wsp.collectAdded l s = .ok { s with
      added_line_numbers := s.added_line_numbers ++ [s.current_hunk_start_line]
      added_lines := s.added_lines ++ [PyStr.pyDropChars l 1] } := by
  unfold Wsp.collectAdded
  unfold Wsp.isAddLine at hadd
  rw [if_pos hadd,
    if_pos (show (!(PyStr.pyStrip (PyStr.pyDropChars l 1) == "")) = true by
      simp only [Bool.not_eq_true', beq_eq_false_iff_ne]
      exact hws),
    if_pos (show s.added_lines.isEmpty = true by simp [hempty])]

/-- `collectAdded` on a later kept addition line of a block: appends
the content only. -/
theorem collectAdded_next (l : String) (s : Wsp.PState)
    (hadd : Wsp.isAddLine l = true)
    (hws : ¬(PyStr.pyStrip (PyStr.pyDropChars l 1) = ""))
    (hne : s.added_lines ≠ []) :
    Wsp.collectAdded l s = .ok { s with
      added_lines := s.added_lines ++ [PyStr.pyDropChars l 1] } := by
  unfold Wsp.collectAdded
  unfold Wsp.isAddLine at hadd
  rw [if_pos hadd,
    if_pos (show (!(PyStr.pyStrip (PyStr.pyDropChars l 1) == "")) = true by
      simp only [Bool.not_eq_true', beq_eq_false_iff_ne]
      exact hws),
    if_neg (show ¬s.added_lines.isEmpty = true by simp [hne])]

/-- `collectAdded` on a whitespace-only addition line: no change. -/
theorem collectAdded_ws (l : String) (s : Wsp.PState)
    (hadd : Wsp.isAddLine l = true)
    (hws : PyStr.pyStrip (PyStr.pyDropChars l 1) = "") :
    Wsp.collectAdded l s = .ok s := by
  unfold Wsp.collectAdded
  unfold Wsp.isAddLine at hadd
  rw [if_pos hadd,
    if_neg (show ¬(!(PyStr.pyStrip (PyStr.pyDropChars l 1) == "")) = true by
      simp [hws])]

/-- `collectAdded` on a non-addition line: closing a pending block
with the adjusted position. -/
theorem collectAdded_other (l : String) (s : Wsp.PState)
    (hnadd : Wsp.isAddLine l = false) :
    Wsp.collectAdded l s =
      Wsp.emitPending (s.position_in_hunk - s.added_lines.length) s := by
  unfold Wsp.collectAdded
  unfold Wsp.isAddLine at hnadd
  rw [if_neg (show ¬(PyStr.pyStartswith l "+" && !PyStr.pyStartswith l "+++") = true by
    simp [hnadd])]

/-- One parser step preserves the basic data invariant and never
raises. -/
theorem stepLine_master (l : String) (s : Wsp.PState) (hI : Wsp.MasterInv s) :
    ∃ s', Wsp.stepLine l s = .ok s' ∧ Wsp.MasterInv s' := by
  obtain ⟨h1, h2, h3, h4⟩ := hI
  cases hfm : Wsp.fileHeaderMatch l with
  | some f =>
    rw [stepLine_eq_file l s f hfm]
    obtain ⟨t, het, tf1, tf2, tf3, tf4, tf5, tf6, tf7, hcase⟩ :=
      emitPending_spec s.position_in_hunk s h1
    rw [het]
    refine ⟨_, rfl, ?_, ?_, ?_, ?_⟩
    · show t.added_lines ≠ [] → t.added_line_numbers ≠ []
      rcases hcase with ⟨ha, hb, _, _⟩ | ⟨ha, hb, _⟩
      · rw [ha, hb]
        exact h1
      · rw [ha, hb]
        intro hcontra
        exact absurd rfl hcontra
    · intro _
      show Wsp.dictHasKey (Wsp.dictEnsureKey t.modified_files f) f = true
      exact dictHasKey_ensure_self t.modified_files f
    · show ∀ sug ∈ t.suggestions, Wsp.goodSuggestion sug
      rcases hcase with ⟨_, _, hc, _⟩ | ⟨_, _, hane, _, _, n, rest, hnum, hc⟩
      · rw [hc]
        exact h3
      · rw [hc]
        intro sug hmem
        rcases List.mem_append.mp hmem with hold | hnew
        · exact h3 sug hold
        · rw [List.mem_singleton] at hnew
          subst hnew
          exact ⟨hane, h4⟩
    · show ∀ c ∈ t.added_lines, PyStr.pyStrip c ≠ ""
      rcases hcase with ⟨ha, _, _, _⟩ | ⟨ha, _, _⟩
      · rw [ha]
        exact h4
      · rw [ha]
        intro c hc
        cases hc
  | none =>
    cases hhm : Wsp.hunkHeaderMatch l with
    | some p =>
      obtain ⟨o, ns⟩ := p
      rw [stepLine_eq_hunk l s o ns hfm hhm]
      obtain ⟨t, het, tf1, tf2, tf3, tf4, tf5, tf6, tf7, hcase⟩ :=
        emitPending_spec s.position_in_hunk s h1
      rw [het]
      refine ⟨_, rfl, ?_, ?_, ?_, ?_⟩
      · show t.added_lines ≠ [] → t.added_line_numbers ≠ []
        rcases hcase with ⟨ha, hb, _, _⟩ | ⟨ha, hb, _⟩
        · rw [ha, hb]
          exact h1
        · rw [ha, hb]
          intro hcontra
          exact absurd rfl hcontra
      · show t.current_file ≠ "" → Wsp.dictHasKey t.modified_files t.current_file = true
        rw [tf1, tf5]
        exact h2
      · show ∀ sug ∈ t.suggestions, Wsp.goodSuggestion sug
        rcases hcase with ⟨_, _, hc, _⟩ | ⟨_, _, hane, _, _, n, rest, hnum, hc⟩
        · rw [hc]
          exact h3
        · rw [hc]
          intro sug hmem
          rcases List.mem_append.mp hmem with hold | hnew
          · exact h3 sug hold
          · rw [List.mem_singleton] at hnew
            subst hnew
            exact ⟨hane, h4⟩
      · show ∀ c ∈ t.added_lines, PyStr.pyStrip c ≠ ""
        rcases hcase with ⟨ha, _, _, _⟩ | ⟨ha, _, _⟩
        · rw [ha]
          exact h4
        · rw [ha]
          intro c hc
          cases hc
    | none =>
      rw [stepLine_eq_other l s hfm hhm]
      obtain ⟨hcs, hcf, hccs, hcp, hca, hcn, hcm, hcr, hcrn⟩ := hunkCollect_fields l s
      obtain ⟨hbs, hbf, hbcs, hbh, hba, hbn, hbm, hbr, hbrn⟩ :=
        posBump_fields (Wsp.hunkCollect l s)
      have h2' : (Wsp.posBump (Wsp.hunkCollect l s)).current_file ≠ "" →
          Wsp.dictHasKey (Wsp.posBump (Wsp.hunkCollect l s)).modified_files
            (Wsp.posBump (Wsp.hunkCollect l s)).current_file = true := by
        rw [hbf, hcf, hbm, hcm]
        exact h2
      obtain ⟨t, hts, t1, t2, t3, t4, t5, t6, t7, t8, t9, t10⟩ :=
        trackModified_spec l (Wsp.posBump (Wsp.hunkCollect l s)) h2'
      rw [hts]
      show ∃ s', Wsp.collectAdded l t = .ok s' ∧ Wsp.MasterInv s'
      have eAdd : t.added_lines = s.added_lines := by rw [t5, hba, hca]
      have eNum : t.added_line_numbers = s.added_line_numbers := by rw [t6, hbn, hcn]
      have eSug : t.suggestions = s.suggestions := by rw [t1, hbs, hcs]
      have eFile : t.current_file = s.current_file := by rw [t2, hbf, hcf]
      have eKey : ∀ k, Wsp.dictHasKey t.modified_files k = Wsp.dictHasKey s.modified_files k := by
        intro k
        rw [t8 k, hbm, hcm]
      cases hadd : Wsp.isAddLine l with
      | true =>
        by_cases hws : PyStr.pyStrip (PyStr.pyDropChars l 1) = ""
        · rw [collectAdded_ws l t hadd hws]
          refine ⟨t, rfl, ?_, ?_, ?_, ?_⟩
          · rw [eAdd, eNum]
            exact h1
          · intro hf
            rw [eKey, eFile]
            exact h2 (eFile ▸ hf)
          · rw [eSug]
            exact h3
          · rw [eAdd]
            exact h4
        · by_cases hemp : t.added_lines = []
          · rw [collectAdded_first l t hadd hws hemp]
            refine ⟨_, rfl, ?_, ?_, ?_, ?_⟩
            · intro _
              show t.added_line_numbers ++ [t.current_hunk_start_line] ≠ []
              simp
            · intro hf
              show Wsp.dictHasKey t.modified_files t.current_file = true
              rw [eKey, eFile]
              exact h2 (eFile ▸ hf)
            · show ∀ sug ∈ t.suggestions, Wsp.goodSuggestion sug
              rw [eSug]
              exact h3
            · show ∀ c ∈ t.added_lines ++ [PyStr.pyDropChars l 1], PyStr.pyStrip c ≠ ""
              intro c hc
              rcases List.mem_append.mp hc with hold | hnew
              · rw [eAdd] at hold
                exact h4 c hold
              · rw [List.mem_singleton] at hnew
                subst hnew
                exact hws
          · rw [collectAdded_next l t hadd hws hemp]
            refine ⟨_, rfl, ?_, ?_, ?_, ?_⟩
            · intro _
              show t.added_line_numbers ≠ []
              rw [eNum]
              exact h1 (by rw [← eAdd]; exact hemp)
            · intro hf
              show Wsp.dictHasKey t.modified_files t.current_file = true
              rw [eKey, eFile]
              exact h2 (eFile ▸ hf)
            · show ∀ sug ∈ t.suggestions, Wsp.goodSuggestion sug
              rw [eSug]
              exact h3
            · show ∀ c ∈ t.added_lines ++ [PyStr.pyDropChars l 1], PyStr.pyStrip c ≠ ""
              intro c hc
              rcases List.mem_append.mp hc with hold | hnew
              · rw [eAdd] at hold
                exact h4 c hold
              · rw [List.mem_singleton] at hnew
                subst hnew
                exact hws
      | false =>
        rw [collectAdded_other l t hadd]
        have ht1 : t.added_lines ≠ [] → t.added_line_numbers ≠ [] := by
          rw [eAdd, eNum]
          exact h1
        obtain ⟨u, heu, uf1, uf2, uf3, uf4, uf5, uf6, uf7, hcase⟩ :=
          emitPending_spec (t.position_in_hunk - t.added_lines.length) t ht1
        rw [heu]
        refine ⟨u, rfl, ?_, ?_, ?_, ?_⟩
        · rcases hcase with ⟨ha, hb, _, _⟩ | ⟨ha, hb, _⟩
          · rw [ha, hb, eAdd, eNum]
            exact h1
          · rw [ha, hb]
            intro hcontra
            exact absurd rfl hcontra
        · rw [uf1, uf5, eKey, eFile]
          exact h2
        · rcases hcase with ⟨_, _, hc, _⟩ | ⟨_, _, hane, _, _, n, rest, hnum, hc⟩
          · rw [hc, eSug]
            exact h3
          · rw [hc]
            intro sug hmem
            rcases List.mem_append.mp hmem with hold | hnew
            · rw [eSug] at hold
              exact h3 sug hold
            · rw [List.mem_singleton] at hnew
              subst hnew
              refine ⟨hane, ?_⟩
              show ∀ c ∈ t.added_lines, PyStr.pyStrip c ≠ ""
              rw [eAdd]
              exact h4
        · rcases hcase with ⟨ha, _, _, _⟩ | ⟨ha, _, _⟩
          · rw [ha, eAdd]
            exact h4
          · rw [ha]
            intro c hc
            cases hc

/-- Running the whole line loop preserves the basic data invariant and
never raises. -/
theorem runLines_master (ls : List String) (s : Wsp.PState) (hI : Wsp.MasterInv s) :
    ∃ s', Wsp.runLines ls s = .ok s' ∧ Wsp.MasterInv s' := by
  induction ls generalizing s with
  | nil => exact ⟨s, rfl, hI⟩
  | cons l ls ih =>
    obtain ⟨t, ht, hIt⟩ := stepLine_master l s hI
    obtain ⟨u, hu, hIu⟩ := ih t hIt
    refine ⟨u, ?_, hIu⟩
    unfold Wsp.runLines
    rw [ht]
    exact hu

/-- The initial parser state satisfies the basic data invariant. -/
theorem initState_master : Wsp.MasterInv Wsp.initState :=
  ⟨fun h => absurd rfl h, fun h => absurd rfl h,
    fun _ h => absurd h (List.not_mem_nil _),
    fun _ h => absurd h (List.not_mem_nil _)⟩

/-- `classify` only sets the `is_in_diff` flag, so `goodSuggestion`
carries over. -/
theorem classify_good (s : Wsp.PState)
    (h : ∀ sug ∈ s.suggestions, Wsp.goodSuggestion sug) :
    ∀ sug ∈ Wsp.classify s, Wsp.goodSuggestion sug := by
  intro sug hmem
  unfold Wsp.classify at hmem
  rw [List.mem_map] at hmem
  obtain ⟨orig, horig, heq⟩ := hmem
  subst heq
  exact h orig horig

/-- A full run of `Workspace.parse_diff` always reaches the
classification stage: the loop and the final block close succeed and
the result is the classified suggestion list of the final state. -/
theorem parse_diff_shape (text : String) :
    ∃ s t, Wsp.runLines (PyStr.pySplitlines text) Wsp.initState = .ok s ∧ Wsp.MasterInv s ∧
      Wsp.finishParse s = .ok t ∧ Wsp.MasterInv t ∧
      Wsp.parse_diff text = .ok (Wsp.classify t) := by
  obtain ⟨s, hs, hI⟩ := runLines_master (PyStr.pySplitlines text) Wsp.initState initState_master
  obtain ⟨h1, h2, h3, h4⟩ := hI
  obtain ⟨t, ht, tf1, tf2, tf3, tf4, tf5, tf6, tf7, hcase⟩ :=
    emitPending_spec (s.position_in_hunk - s.added_lines.length + 1) s h1
  have hIt : Wsp.MasterInv t := by
    refine ⟨?_, ?_, ?_, ?_⟩
    · rcases hcase with ⟨ha, hb, _, _⟩ | ⟨ha, hb, _⟩
      · rw [ha, hb]
        exact h1
      · rw [ha, hb]
        intro hc
        exact absurd rfl hc
    · rw [tf1, tf5]
      exact h2
    · rcases hcase with ⟨_, _, hc, _⟩ | ⟨_, _, hane, _, _, n, rest, hnum, hc⟩
      · rw [hc]
        exact h3
      · rw [hc]
        intro sug hmem
        rcases List.mem_append.mp hmem with hold | hnew
        · exact h3 sug hold
        · rw [List.mem_singleton] at hnew
          subst hnew
          exact ⟨hane, h4⟩
    · rcases hcase with ⟨ha, _, _, _⟩ | ⟨ha, _, _⟩
      · rw [ha]
        exact h4
      · rw [ha]
        intro c hcm
        cases hcm
  refine ⟨s, t, hs, ⟨h1, h2, h3, h4⟩, ?_, hIt, ?_⟩
  · unfold Wsp.finishParse
    exact ht
  · unfold Wsp.parse_diff
    rw [hs]
    show (match Wsp.finishParse s with
      | Except.error e => Except.error e
      | Except.ok u => Except.ok (Wsp.classify u)) = Except.ok (Wsp.classify t)
    unfold Wsp.finishParse
    rw [ht]

/-- C6 amended: `Workspace.parse_diff` returns a suggestion list for
every input string, however malformed — it never raises (the
`added_line_numbers[0]` and `modified_files[current_file]` accesses
are always safe).  However, an addition block collected before the
first file header is not always silently discarded: it may later be
emitted under the first file's name (see the counterexample). -/
theorem c6_amended (diff_text : String) :
    ∃ sugs, Wsp.parse_diff diff_text = .ok sugs := by
  obtain ⟨s, t, _, _, _, _, hp⟩ := parse_diff_shape diff_text
  exact ⟨_, hp⟩

/-- A step on a line whose addition content (if any) is whitespace-only
keeps the pending block and the suggestion list empty. -/
theorem stepLine_allWs (l : String) (s : Wsp.PState) (hI : Wsp.MasterInv s)
    (hadd : s.added_lines = []) (hsug : s.suggestions = [])
    (hl : (!Wsp.isAddLine l || (PyStr.pyStrip (PyStr.pyDropChars l 1) == "")) = true) :
    ∃ s', Wsp.stepLine l s = .ok s' ∧ Wsp.MasterInv s' ∧
      s'.added_lines = [] ∧ s'.suggestions = [] := by
  obtain ⟨s', hstep, hI'⟩ := stepLine_master l s hI
  refine ⟨s', hstep, hI', ?_⟩
  have hemit : ∀ pos t u, t.added_lines = [] → Wsp.emitPending pos t = .ok u →
      u.added_lines = t.added_lines ∧ u.suggestions = t.suggestions := by
    intro pos t u hta hu
    unfold Wsp.emitPending at hu
    rw [if_neg (by simp [hta])] at hu
    cases hu
    exact ⟨rfl, rfl⟩
  revert hstep
  cases hfm : Wsp.fileHeaderMatch l with
  | some f =>
    rw [stepLine_eq_file l s f hfm]
    cases he : Wsp.emitPending s.position_in_hunk s with
    | error e => intro hc; cases hc
    | ok t =>
      obtain ⟨hta, hts⟩ := hemit _ s t hadd he
      intro hc
      cases hc
      rw [hta, hts]
      exact ⟨hadd, hsug⟩
  | none =>
    cases hhm : Wsp.hunkHeaderMatch l with
    | some p =>
      obtain ⟨o, ns⟩ := p
      rw [stepLine_eq_hunk l s o ns hfm hhm]
      cases he : Wsp.emitPending s.position_in_hunk s with
      | error e => intro hc; cases hc
      | ok t =>
        obtain ⟨hta, hts⟩ := hemit _ s t hadd he
        intro hc
        cases hc
        rw [hta, hts]
        exact ⟨hadd, hsug⟩
    | none =>
      rw [stepLine_eq_other l s hfm hhm]
      obtain ⟨hcs, hcf, hccs, hcp, hca, hcn, hcm, hcr, hcrn⟩ := hunkCollect_fields l s
      obtain ⟨hbs, hbf, hbcs, hbh, hba, hbn, hbm, hbr, hbrn⟩ :=
        posBump_fields (Wsp.hunkCollect l s)
      cases htr : Wsp.trackModified l (Wsp.posBump (Wsp.hunkCollect l s)) with
      | error e => intro hc; cases hc
      | ok t =>
        obtain ⟨u, hu, t1, t2, t3, t4, t5, t6, t7, t8, t9, t10⟩ :=
          trackModified_spec l (Wsp.posBump (Wsp.hunkCollect l s))
            (by rw [hbf, hcf, hbm, hcm]; exact hI.2.1)
        rw [htr] at hu
        cases hu
        have eAdd : t.added_lines = [] := by rw [t5, hba, hca]; exact hadd
        have eSug : t.suggestions = [] := by rw [t1, hbs, hcs]; exact hsug
        intro hc
        have hc' : Wsp.collectAdded l t = Except.ok s' := hc
        cases hia : Wsp.isAddLine l with
        | true =>
          have hws : PyStr.pyStrip (PyStr.pyDropChars l 1) = "" := by
            rw [hia] at hl
            simpa using hl
          rw [collectAdded_ws l t hia hws] at hc'
          cases hc'
          exact ⟨eAdd, eSug⟩
        | false =>
          rw [collectAdded_other l t hia] at hc'
          obtain ⟨hta, hts⟩ := hemit _ t s' eAdd hc'
          rw [hta, hts]
          exact ⟨eAdd, eSug⟩

/-- Over an input all of whose addition lines are whitespace-only, the
loop keeps the pending block and the suggestion list empty. -/
theorem runLines_allWs (ls : List String) (s : Wsp.PState) (hI : Wsp.MasterInv s)
    (hadd : s.added_lines = []) (hsug : s.suggestions = [])
    (hws : Wsp.allAddsWs ls = true) :
    ∃ s', Wsp.runLines ls s = .ok s' ∧ Wsp.MasterInv s' ∧
      s'.added_lines = [] ∧ s'.suggestions = [] := by
  induction ls generalizing s with
  | nil => exact ⟨s, rfl, hI, hadd, hsug⟩
  | cons l ls ih =>
    unfold Wsp.allAddsWs at hws
    rw [List.all_cons, Bool.and_eq_true] at hws
    obtain ⟨t, ht, hIt, hta, hts⟩ := stepLine_allWs l s hI hadd hsug hws.1
    obtain ⟨u, hu, hIu, hua, hus⟩ := ih t hIt hta hts hws.2
    refine ⟨u, ?_, hIu, hua, hus⟩
    unfold Wsp.runLines
    rw [ht]
    exact hu

/-- C7: every suggestion emitted by `Workspace.parse_diff` has
non-empty content, and an input whose addition lines are all
whitespace-only (such as a block of `"+   "` lines) produces no
suggestion at all. -/
theorem c7_nonempty_content :
    (∀ (diff_text : String) (sugs : List Wsp.CodeSuggestion),
      Wsp.parse_diff diff_text = .ok sugs → ∀ sug ∈ sugs, sug.suggestion ≠ []) ∧
    (∀ diff_text : String, Wsp.allAddsWs (PyStr.pySplitlines diff_text) = true →
      Wsp.parse_diff diff_text = .ok []) := by
  constructor
  · intro text sugs hok sug hmem
    obtain ⟨s, t, _, _, _, hIt, hp⟩ := parse_diff_shape text
    rw [hp] at hok
    injection hok with hok
    subst hok
    exact (classify_good t hIt.2.2.1 sug hmem).1
  · intro text hws
    obtain ⟨s, hs, hI, hadd, hsug⟩ :=
      runLines_allWs (PyStr.pySplitlines text) Wsp.initState initState_master rfl rfl hws
    unfold Wsp.parse_diff
    rw [hs]
    show (match Wsp.finishParse s with
      | Except.error e => Except.error e
      | Except.ok u => Except.ok (Wsp.classify u)) = Except.ok []
    unfold Wsp.finishParse Wsp.emitPending
    rw [if_neg (by simp [hadd])]
    show Except.ok (Wsp.classify s) = Except.ok []
    unfold Wsp.classify
    rw [hsug]
    rfl

/-- Witness for C7: the concrete suggestion parsed from a one-addition
diff has non-empty content, and the whitespace-only addition input
`"+   \n"` (Scenario E) produces no suggestions. -/
theorem c7_witness :
    (∀ sug ∈ [(⟨"x", 1, ["new"], 2, "@@ -1,1 +1,2 @@\n+new", true⟩ : Wsp.CodeSuggestion)],
      sug.suggestion ≠ []) ∧
    Wsp.parse_diff "+   \n" = .ok [] := by
  constructor
  · exact c7_nonempty_content.1 "diff --git a/x b/x\n@@ -1,1 +1,2 @@\n+new" _ (by decide)
  · exact c7_nonempty_content.2 "+   \n" (by decide)

/-- C9: every string in every emitted suggestion's content is
non-whitespace — whitespace-only addition lines inside a mixed block
are silently dropped, so (as the concrete conjunct shows for a
three-addition block `+a`, `+ `, `+b`) the content can be a strict
subsequence `["a", "b"]` of the block's addition lines. -/
theorem c9_content_non_whitespace :
    (∀ (diff_text : String) (sugs : List Wsp.CodeSuggestion),
      Wsp.parse_diff diff_text = .ok sugs →
      ∀ sug ∈ sugs, ∀ c ∈ sug.suggestion, PyStr.pyStrip c ≠ "") ∧
    Wsp.parse_diff "diff --git a/x b/x\n@@ -1,1 +1,3 @@\n+a\n+ \n+b\n" =
      .ok [⟨"x", 1, ["a", "b"], 3, "@@ -1,1 +1,3 @@\n+a\n+ \n+b", true⟩] := by
  constructor
  · intro text sugs hok sug hmem
    obtain ⟨s, t, _, _, _, hIt, hp⟩ := parse_diff_shape text
    rw [hp] at hok
    injection hok with hok
    subst hok
    exact (classify_good t hIt.2.2.1 sug hmem).2
  · decide

/-- Witness for C9: the universal part applied to the concrete
mixed-block diff — both content strings of its single suggestion are
non-whitespace. -/
theorem c9_witness :
    ∀ sug ∈ [(⟨"x", 1, ["a", "b"], 3, "@@ -1,1 +1,3 @@\n+a\n+ \n+b", true⟩ :
      Wsp.CodeSuggestion)], ∀ c ∈ sug.suggestion, PyStr.pyStrip c ≠ "" :=
  c9_content_non_whitespace.1 "diff --git a/x b/x\n@@ -1,1 +1,3 @@\n+a\n+ \n+b\n" _
    (by decide)

/-- `emitPending` does nothing when no block is pending. -/
theorem emitPending_empty (pos : Int) (s : Wsp.PState) (h : s.added_lines = []) :
    Wsp.emitPending pos s = .ok s := by
  unfold Wsp.emitPending
  rw [if_neg (by simp [h])]

/-- Two strings whose first characters differ are not prefix-related. -/
theorem pyStartswith_head_ne (l p : String) (c d : Char) (restl restp : List Char)
    (hl : l.data = c :: restl) (hp : p.data = d :: restp) (hne : (d == c) = false) :
    PyStr.pyStartswith l p = false := by
  unfold PyStr.pyStartswith
  rw [hl, hp]
  show (d == c && List.isPrefixOf restp restl) = false
  rw [hne]
  rfl

/-- A no-newline-marker line (first character a backslash) matches
neither header pattern, is not an addition and is not a deletion. -/
theorem backslash_line_facts (l : String) (hb : PyStr.pyStartswith l "\\" = true) :
    Wsp.fileHeaderMatch l = none ∧ Wsp.hunkHeaderMatch l = none ∧
    Wsp.isAddLine l = false ∧ PyStr.pyStartswith l "-" = false := by
  rw [show ("\\" : String) = ⟨['\\']⟩ from rfl, pyStartswith_one] at hb
  obtain ⟨rest, hl⟩ : ∃ rest, l.data = '\\' :: rest := by
    revert hb
    rcases hr : l.data with _ | ⟨d, rest⟩
    · intro hb
      exact absurd hb (by decide)
    · intro hb
      simp only [beq_iff_eq] at hb
      subst hb
      exact ⟨rest, rfl⟩
  refine ⟨?_, ?_, ?_, ?_⟩
  · unfold Wsp.fileHeaderMatch
    rw [if_neg]
    rw [Bool.not_eq_true]
    exact pyStartswith_head_ne l "diff --git a/" '\\' 'd' rest "iff --git a/".data hl rfl
      (by decide)
  · unfold Wsp.hunkHeaderMatch
    rw [hl]
    rfl
  · unfold Wsp.isAddLine
    rw [pyStartswith_head_ne l "+" '\\' '+' rest [] hl rfl (by decide)]
    rfl
  · exact pyStartswith_head_ne l "-" '\\' '-' rest [] hl rfl (by decide)

/-- `trackModified` leaves the state untouched on a no-newline-marker
line. -/
theorem trackModified_backslash (l : String) (s : Wsp.PState)
    (hb : PyStr.pyStartswith l "\\" = true)
    (hminus : PyStr.pyStartswith l "-" = false)
    (hplus : Wsp.isAddLine l = false) :
    Wsp.trackModified l s = .ok s := by
  unfold Wsp.trackModified
  unfold Wsp.isAddLine at hplus
  split
  · rw [if_neg (by simp [hminus]), if_neg (by simp [hplus]), if_neg (by simp [hb])]
  · rfl

/-- C4 amended: a no-newline-marker line leaves the tracked new-file
line counter (`current_hunk_start_line`), the removed-line pair state
and the modified-line dictionary unchanged, but — contrary to the
original claim — it does increment the `position_in_hunk` counter
whenever a hunk is open (and is appended to the collected hunk), so
suggestions after the marker keep their `line` but their `position` is
one greater than without the marker.  (With a pending block, the
marker additionally closes the block like any other non-addition
line; the `added_lines = []` hypothesis isolates the coordinate
effect.) -/
theorem c4_amended (s : Wsp.PState) (l : String)
    (hb : PyStr.pyStartswith l "\\" = true) (hadd : s.added_lines = []) :
    Wsp.stepLine l s = .ok { s with
      current_diff_hunk :=
        if !s.current_diff_hunk.isEmpty then s.current_diff_hunk ++ [l]
        else s.current_diff_hunk
      position_in_hunk :=
        if 0 < s.position_in_hunk then s.position_in_hunk + 1
        else s.position_in_hunk } := by
  obtain ⟨hfm, hhm, hia, hm⟩ := backslash_line_facts l hb
  rw [stepLine_eq_other l s hfm hhm]
  rw [trackModified_backslash l (Wsp.posBump (Wsp.hunkCollect l s)) hb hm hia]
  show Wsp.collectAdded l (Wsp.posBump (Wsp.hunkCollect l s)) = _
  rw [collectAdded_other l (Wsp.posBump (Wsp.hunkCollect l s)) hia]
  rw [emitPending_empty _ _ (by
    obtain ⟨_, _, _, _, hca, _, _, _, _⟩ := hunkCollect_fields l s
    obtain ⟨_, _, _, _, hba, _, _, _, _⟩ := posBump_fields (Wsp.hunkCollect l s)
    rw [hba, hca]
    exact hadd)]
  unfold Wsp.posBump Wsp.hunkCollect
  by_cases hh : s.current_diff_hunk.isEmpty <;>
    by_cases hp : 0 < s.position_in_hunk <;>
      simp [hh, hp, List.isEmpty_iff]

/-- Witness for C4 amended: stepping a concrete open-hunk state over a
no-newline-marker line leaves the new-file line counter at 3 and the
pair tracking unchanged, and increments the position counter from 2 to
3. -/
theorem c4_amended_witness :
    Wsp.stepLine "\\ No newline at end of file"
        ⟨[], "x", 3, 2, [], [], ["@@ -1,1 +1,2 @@"], [("x", [1])], none, 0⟩ =
      .ok ⟨[], "x", 3, 3, [], [],
        ["@@ -1,1 +1,2 @@", "\\ No newline at end of file"], [("x", [1])], none, 0⟩ := by
  have h := c4_amended ⟨[], "x", 3, 2, [], [], ["@@ -1,1 +1,2 @@"], [("x", [1])], none, 0⟩
    "\\ No newline at end of file" (by decide) rfl
  rw [h]
  rfl

/-- Over a well-formed line list (every addition after a
non-empty-path file header and a hunk header of its file), the loop
preserves: every emitted suggestion's `(file, line)` is recorded in
the modified-line dictionary, and a pending block's anchor is
recorded too. -/
theorem runLines_C2 (ls : List String) (fs hs : Bool) (s : Wsp.PState)
    (hwf : Wsp.wfLines ls fs hs = true) (hInv : Wsp.C2Inv fs hs s) :
    ∃ s', Wsp.runLines ls s = .ok s' ∧ Wsp.MasterInv s' ∧
      (s'.added_lines = [] → s'.added_line_numbers = []) ∧
      (s'.added_lines ≠ [] → s'.current_file ≠ "" ∧ s'.current_diff_hunk ≠ [] ∧
        ∀ n, s'.added_line_numbers.head? = some n →
          Wsp.inModified s'.modified_files s'.current_file n) ∧
      (∀ sug ∈ s'.suggestions, Wsp.inModified s'.modified_files sug.file sug.line) := by
  induction ls generalizing fs hs s with
  | nil =>
    obtain ⟨hM, hF, hH, hP2, hP, hS⟩ := hInv
    exact ⟨s, rfl, hM, hP2, hP, hS⟩
  | cons l ls ih =>
    obtain ⟨hM, hF, hH, hP2, hP, hS⟩ := hInv
    obtain ⟨h1, h2, h3, h4⟩ := hM
    unfold Wsp.wfLines at hwf
    cases hfm : Wsp.fileHeaderMatch l with
    | some f =>
      rw [hfm, Bool.and_eq_true] at hwf
      have hf : f ≠ "" := by simpa using hwf.1
      obtain ⟨t, het, tf1, tf2, tf3, tf4, tf5, tf6, tf7, hcase⟩ :=
        emitPending_spec s.position_in_hunk s h1
      have htempty : t.added_lines = [] ∧ t.added_line_numbers = [] := by
        rcases hcase with ⟨ha, hb, _, hdisj⟩ | ⟨ha, hb, _⟩
        · have hsadd : s.added_lines = [] := by
            rcases hdisj with hd | hd | hd
            · exact hd
            · by_contra hne
              exact absurd hd (hP hne).1
            · by_contra hne
              exact absurd hd (hP hne).2.1
          exact ⟨ha.trans hsadd, hb.trans (hP2 hsadd)⟩
        · exact ⟨ha, hb⟩
      have hstep : Wsp.stepLine l s = .ok { t with
          current_file := f
          modified_files := Wsp.dictEnsureKey t.modified_files f
          current_diff_hunk := []
          removed_line := none
          removed_line_number := 0 } := by
        rw [stepLine_eq_file l s f hfm, het]
      have hrun : Wsp.runLines (l :: ls) s = Wsp.runLines ls { t with
          current_file := f
          modified_files := Wsp.dictEnsureKey t.modified_files f
          current_diff_hunk := []
          removed_line := none
          removed_line_number := 0 } := by
        simp only [Wsp.runLines]
        rw [hstep]
      rw [hrun]
      apply ih true false _ hwf.2
      refine ⟨⟨?_, ?_, ?_, ?_⟩, ?_, ?_, ?_, ?_, ?_⟩
      · intro hc
        exact absurd htempty.1 hc
      · intro _
        exact dictHasKey_ensure_self t.modified_files f
      · show ∀ sug ∈ t.suggestions, Wsp.goodSuggestion sug
        rcases hcase with ⟨_, _, hc, _⟩ | ⟨_, _, hane, _, _, n, rest, hnum, hc⟩
        · rw [hc]
          exact h3
        · rw [hc]
          intro sug hmem
          rcases List.mem_append.mp hmem with hold | hnew
          · exact h3 sug hold
          · rw [List.mem_singleton] at hnew
            subst hnew
            exact ⟨hane, h4⟩
      · show ∀ c ∈ t.added_lines, PyStr.pyStrip c ≠ ""
        rw [htempty.1]
        intro c hc
        cases hc
      · intro _
        exact hf
      · intro hcontra
        exact absurd hcontra (by decide)
      · intro _
        exact htempty.2
      · intro hc
        exact absurd htempty.1 hc
      · show ∀ sug ∈ t.suggestions,
          Wsp.inModified (Wsp.dictEnsureKey t.modified_files f) sug.file sug.line
        rcases hcase with ⟨_, _, hc, _⟩ | ⟨_, _, hane, _, _, n, rest, hnum, hc⟩
        · rw [hc, tf5]
          intro sug hmem
          obtain ⟨hk, hl⟩ := hS sug hmem
          exact ⟨dictHasKey_ensure_mono _ f _ hk, dictLineMem_ensure_mono _ f _ _ hl⟩
        · rw [hc, tf5]
          intro sug hmem
          rcases List.mem_append.mp hmem with hold | hnew
          · obtain ⟨hk, hl⟩ := hS sug hold
            exact ⟨dictHasKey_ensure_mono _ f _ hk, dictLineMem_ensure_mono _ f _ _ hl⟩
          · rw [List.mem_singleton] at hnew
            subst hnew
            obtain ⟨_, _, hhd⟩ := hP hane
            obtain ⟨hk, hl⟩ := hhd n (by rw [hnum]; rfl)
            exact ⟨dictHasKey_ensure_mono _ f _ hk, dictLineMem_ensure_mono _ f _ _ hl⟩
    | none =>
      cases hhm : Wsp.hunkHeaderMatch l with
      | some p =>
        obtain ⟨o, ns⟩ := p
        rw [hfm, hhm] at hwf
        have hwfh : Wsp.wfLines ls fs fs = true := hwf
        obtain ⟨t, het, tf1, tf2, tf3, tf4, tf5, tf6, tf7, hcase⟩ :=
          emitPending_spec s.position_in_hunk s h1
        have htempty : t.added_lines = [] ∧ t.added_line_numbers = [] := by
          rcases hcase with ⟨ha, hb, _, hdisj⟩ | ⟨ha, hb, _⟩
          · have hsadd : s.added_lines = [] := by
              rcases hdisj with hd | hd | hd
              · exact hd
              · by_contra hne
                exact absurd hd (hP hne).1
              · by_contra hne
                exact absurd hd (hP hne).2.1
            exact ⟨ha.trans hsadd, hb.trans (hP2 hsadd)⟩
          · exact ⟨ha, hb⟩
        have hstep : Wsp.stepLine l s = .ok { t with
            current_hunk_start_line := (ns : Int) - 1
            position_in_hunk := 1
            current_diff_hunk := [l]
            removed_line := none
            removed_line_number := (o : Int) - 1 } := by
          rw [stepLine_eq_hunk l s o ns hfm hhm, het]
        have hrun : Wsp.runLines (l :: ls) s = Wsp.runLines ls { t with
            current_hunk_start_line := (ns : Int) - 1
            position_in_hunk := 1
            current_diff_hunk := [l]
            removed_line := none
            removed_line_number := (o : Int) - 1 } := by
          simp only [Wsp.runLines]
          rw [hstep]
        rw [hrun]
        apply ih fs fs _ hwfh
        refine ⟨⟨?_, ?_, ?_, ?_⟩, ?_, ?_, ?_, ?_, ?_⟩
        · intro hc
          exact absurd htempty.1 hc
        · show t.current_file ≠ "" → Wsp.dictHasKey t.modified_files t.current_file = true
          rw [tf1, tf5]
          exact h2
        · show ∀ sug ∈ t.suggestions, Wsp.goodSuggestion sug
          rcases hcase with ⟨_, _, hc, _⟩ | ⟨_, _, hane, _, _, n, rest, hnum, hc⟩
          · rw [hc]
            exact h3
          · rw [hc]
            intro sug hmem
            rcases List.mem_append.mp hmem with hold | hnew
            · exact h3 sug hold
            · rw [List.mem_singleton] at hnew
              subst hnew
              exact ⟨hane, h4⟩
        · show ∀ c ∈ t.added_lines, PyStr.pyStrip c ≠ ""
          rw [htempty.1]
          intro c hc
          cases hc
        · show fs = true → t.current_file ≠ ""
          rw [tf1]
          exact hF
        · intro _
          refine ⟨by show (0 : Int) < 1; decide, by show l :: [] ≠ []; simp⟩
        · intro _
          exact htempty.2
        · intro hc
          exact absurd htempty.1 hc
        · show ∀ sug ∈ t.suggestions, Wsp.inModified t.modified_files sug.file sug.line
          rcases hcase with ⟨_, _, hc, _⟩ | ⟨_, _, hane, _, _, n, rest, hnum, hc⟩
          · rw [hc, tf5]
            exact hS
          · rw [hc, tf5]
            intro sug hmem
            rcases List.mem_append.mp hmem with hold | hnew
            · exact hS sug hold
            · rw [List.mem_singleton] at hnew
              subst hnew
              obtain ⟨_, _, hhd⟩ := hP hane
              exact hhd n (by rw [hnum]; rfl)
      | none =>
        rw [hfm, hhm] at hwf
        have hwf0 : (if Wsp.isAddLine l = true then fs && hs && Wsp.wfLines ls fs hs
            else Wsp.wfLines ls fs hs) = true := hwf
        obtain ⟨hcs, hcf, hccs, hcp, hca, hcn, hcm, hcr, hcrn⟩ := hunkCollect_fields l s
        obtain ⟨hbs, hbf, hbcs, hbh, hba, hbn, hbm, hbr, hbrn⟩ :=
          posBump_fields (Wsp.hunkCollect l s)
        have h2' : (Wsp.posBump (Wsp.hunkCollect l s)).current_file ≠ "" →
            Wsp.dictHasKey (Wsp.posBump (Wsp.hunkCollect l s)).modified_files
              (Wsp.posBump (Wsp.hunkCollect l s)).current_file = true := by
          rw [hbf, hcf, hbm, hcm]
          exact h2
        obtain ⟨t, hts, t1, t2, t3, t4, t5, t6, t7, t8, t9, t10⟩ :=
          trackModified_spec l (Wsp.posBump (Wsp.hunkCollect l s)) h2'
        have eAdd : t.added_lines = s.added_lines := by rw [t5, hba, hca]
        have eNum : t.added_line_numbers = s.added_line_numbers := by rw [t6, hbn, hcn]
        have eSug : t.suggestions = s.suggestions := by rw [t1, hbs, hcs]
        have eFile : t.current_file = s.current_file := by rw [t2, hbf, hcf]
        have eKey : ∀ k, Wsp.dictHasKey t.modified_files k =
            Wsp.dictHasKey s.modified_files k := by
          intro k
          rw [t8 k, hbm, hcm]
        have eMono : ∀ k n, Wsp.dictLineMem s.modified_files k n = true →
            Wsp.dictLineMem t.modified_files k n = true := by
          intro k n hm
          apply t9
          rw [hbm, hcm]
          exact hm
        have ePos : 0 < t.position_in_hunk ↔ 0 < s.position_in_hunk := by
          rw [t3, posBump_pos, hcp]
        have eHunkNe : s.current_diff_hunk ≠ [] → t.current_diff_hunk ≠ [] := by
          intro hne hc
          rw [t4, hbh] at hc
          exact hne ((hunkCollect_hunk_empty l s).mp hc)
        cases hia : Wsp.isAddLine l with
        | true =>
          have hwf1 : (fs && hs && Wsp.wfLines ls fs hs) = true := by
            rw [hia] at hwf0
            simpa using hwf0
          rw [Bool.and_eq_true, Bool.and_eq_true] at hwf1
          obtain ⟨⟨hfs, hhs⟩, hwf'⟩ := hwf1
          have hfileS : s.current_file ≠ "" := hF hfs
          obtain ⟨hposS, hhunkS⟩ := hH hhs
          obtain ⟨hcs1, hmem1⟩ := t10 hia (by rw [hbf, hcf]; exact hfileS)
            (by rw [posBump_pos, hcp]; exact hposS)
          by_cases hws : PyStr.pyStrip (PyStr.pyDropChars l 1) = ""
          · have hstep : Wsp.stepLine l s = .ok t := by
              rw [stepLine_eq_other l s hfm hhm, hts]
              show Wsp.collectAdded l t = .ok t
              exact collectAdded_ws l t hia hws
            have hrun : Wsp.runLines (l :: ls) s = Wsp.runLines ls t := by
              simp only [Wsp.runLines]
              rw [hstep]
            rw [hrun]
            apply ih fs hs t hwf'
            refine ⟨⟨?_, ?_, ?_, ?_⟩, ?_, ?_, ?_, ?_, ?_⟩
            · rw [eAdd, eNum]
              exact h1
            · intro hf
              rw [eKey, eFile]
              exact h2 (eFile ▸ hf)
            · rw [eSug]
              exact h3
            · rw [eAdd]
              exact h4
            · intro _
              rw [eFile]
              exact hfileS
            · intro hh
              obtain ⟨hp, hd⟩ := hH hh
              exact ⟨ePos.mpr hp, eHunkNe hd⟩
            · rw [eAdd, eNum]
              exact hP2
            · intro hne
              rw [eAdd] at hne
              obtain ⟨hf', hd', hhd⟩ := hP hne
              refine ⟨by rw [eFile]; exact hf', eHunkNe hd', ?_⟩
              intro n hn
              rw [eNum] at hn
              obtain ⟨hk, hl⟩ := hhd n hn
              exact ⟨by rw [eKey, eFile]; exact hk, by rw [eFile]; exact eMono _ _ hl⟩
            · intro sug hmem
              rw [eSug] at hmem
              obtain ⟨hk, hl⟩ := hS sug hmem
              exact ⟨by rw [eKey]; exact hk, eMono _ _ hl⟩
          · by_cases hemp : t.added_lines = []
            · have hstep : Wsp.stepLine l s = .ok { t with
                  added_line_numbers := t.added_line_numbers ++ [t.current_hunk_start_line]
                  added_lines := t.added_lines ++ [PyStr.pyDropChars l 1] } := by
                rw [stepLine_eq_other l s hfm hhm, hts]
                show Wsp.collectAdded l t = _
                exact collectAdded_first l t hia hws hemp
              have hrun : Wsp.runLines (l :: ls) s = Wsp.runLines ls { t with
                  added_line_numbers := t.added_line_numbers ++ [t.current_hunk_start_line]
                  added_lines := t.added_lines ++ [PyStr.pyDropChars l 1] } := by
                simp only [Wsp.runLines]
                rw [hstep]
              rw [hrun]
              apply ih fs hs _ hwf'
              have hsadd : s.added_lines = [] := by rw [← eAdd]; exact hemp
              have hsnum : t.added_line_numbers = [] := by rw [eNum]; exact hP2 hsadd
              refine ⟨⟨?_, ?_, ?_, ?_⟩, ?_, ?_, ?_, ?_, ?_⟩
              · intro _
                simp
              · intro hf
                show Wsp.dictHasKey t.modified_files t.current_file = true
                rw [eKey, eFile]
                exact h2 (eFile ▸ hf)
              · show ∀ sug ∈ t.suggestions, Wsp.goodSuggestion sug
                rw [eSug]
                exact h3
              · show ∀ c ∈ t.added_lines ++ [PyStr.pyDropChars l 1], PyStr.pyStrip c ≠ ""
                intro c hc
                rcases List.mem_append.mp hc with hold | hnew
                · rw [eAdd] at hold
                  exact h4 c hold
                · rw [List.mem_singleton] at hnew
                  subst hnew
                  exact hws
              · intro _
                show t.current_file ≠ ""
                rw [eFile]
                exact hfileS
              · intro hh
                obtain ⟨hp, hd⟩ := hH hh
                exact ⟨ePos.mpr hp, eHunkNe hd⟩
              · intro hc
                exact absurd hc (by simp)
              · intro _
                refine ⟨by show t.current_file ≠ ""; rw [eFile]; exact hfileS,
                  eHunkNe hhunkS, ?_⟩
                intro n hn
                rw [hsnum] at hn
                simp only [List.nil_append, List.head?_cons, Option.some.injEq] at hn
                subst hn
                show Wsp.inModified t.modified_files t.current_file t.current_hunk_start_line
                exact ⟨by rw [eKey, eFile]; exact h2 hfileS, hmem1⟩
              · show ∀ sug ∈ t.suggestions,
                  Wsp.inModified t.modified_files sug.file sug.line
                rw [eSug]
                intro sug hmem
                obtain ⟨hk, hl⟩ := hS sug hmem
                exact ⟨by rw [eKey]; exact hk, eMono _ _ hl⟩
            · have hstep : Wsp.stepLine l s = .ok { t with
                  added_lines := t.added_lines ++ [PyStr.pyDropChars l 1] } := by
                rw [stepLine_eq_other l s hfm hhm, hts]
                show Wsp.collectAdded l t = _
                exact collectAdded_next l t hia hws hemp
              have hrun : Wsp.runLines (l :: ls) s = Wsp.runLines ls { t with
                  added_lines := t.added_lines ++ [PyStr.pyDropChars l 1] } := by
                simp only [Wsp.runLines]
                rw [hstep]
              rw [hrun]
              apply ih fs hs _ hwf'
              have hsadd : s.added_lines ≠ [] := by rw [← eAdd]; exact hemp
              refine ⟨⟨?_, ?_, ?_, ?_⟩, ?_, ?_, ?_, ?_, ?_⟩
              · intro _
                show t.added_line_numbers ≠ []
                rw [eNum]
                exact h1 hsadd
              · intro hf
                show Wsp.dictHasKey t.modified_files t.current_file = true
                rw [eKey, eFile]
                exact h2 (eFile ▸ hf)
              · show ∀ sug ∈ t.suggestions, Wsp.goodSuggestion sug
                rw [eSug]
                exact h3
              · show ∀ c ∈ t.added_lines ++ [PyStr.pyDropChars l 1], PyStr.pyStrip c ≠ ""
                intro c hc
                rcases List.mem_append.mp hc with hold | hnew
                · rw [eAdd] at hold
                  exact h4 c hold
                · rw [List.mem_singleton] at hnew
                  subst hnew
                  exact hws
              · intro _
                show t.current_file ≠ ""
                rw [eFile]
                exact hfileS
              · intro hh
                obtain ⟨hp, hd⟩ := hH hh
                exact ⟨ePos.mpr hp, eHunkNe hd⟩
              · intro hc
                exact absurd hc (by simp)
              · intro _
                obtain ⟨hf', hd', hhd⟩ := hP hsadd
                refine ⟨by show t.current_file ≠ ""; rw [eFile]; exact hf',
                  eHunkNe hd', ?_⟩
                intro n hn
                have hn' : t.added_line_numbers.head? = some n := hn
                rw [eNum] at hn'
                obtain ⟨hk, hl⟩ := hhd n hn'
                refine ⟨?_, ?_⟩
                · show Wsp.dictHasKey t.modified_files t.current_file = true
                  rw [eKey, eFile]
                  exact hk
                · show Wsp.dictLineMem t.modified_files t.current_file n = true
                  rw [eFile]
                  exact eMono _ _ hl
              · show ∀ sug ∈ t.suggestions,
                  Wsp.inModified t.modified_files sug.file sug.line
                rw [eSug]
                intro sug hmem
                obtain ⟨hk, hl⟩ := hS sug hmem
                exact ⟨by rw [eKey]; exact hk, eMono _ _ hl⟩
        | false =>
          have hwf' : Wsp.wfLines ls fs hs = true := by
            rw [hia] at hwf0
            simpa using hwf0
          have ht1 : t.added_lines ≠ [] → t.added_line_numbers ≠ [] := by
            rw [eAdd, eNum]
            exact h1
          obtain ⟨u, heu, uf1, uf2, uf3, uf4, uf5, uf6, uf7, hucase⟩ :=
            emitPending_spec (t.position_in_hunk - t.added_lines.length) t ht1
          have hstep : Wsp.stepLine l s = .ok u := by
            rw [stepLine_eq_other l s hfm hhm, hts]
            show Wsp.collectAdded l t = .ok u
            rw [collectAdded_other l t hia]
            exact heu
          have hrun : Wsp.runLines (l :: ls) s = Wsp.runLines ls u := by
            simp only [Wsp.runLines]
            rw [hstep]
          rw [hrun]
          apply ih fs hs u hwf'
          refine ⟨⟨?_, ?_, ?_, ?_⟩, ?_, ?_, ?_, ?_, ?_⟩
          · rcases hucase with ⟨ha, hb, _, _⟩ | ⟨ha, hb, _⟩
            · rw [ha, hb, eAdd, eNum]
              exact h1
            · rw [ha, hb]
              intro hc
              exact absurd rfl hc
          · rw [uf1, uf5, eKey, eFile]
            exact h2
          · rcases hucase with ⟨_, _, hc, _⟩ | ⟨_, _, hane, _, _, n, rest, hnum, hc⟩
            · rw [hc, eSug]
              exact h3
            · rw [hc]
              intro sug hmem
              rcases List.mem_append.mp hmem with hold | hnew
              · rw [eSug] at hold
                exact h3 sug hold
              · rw [List.mem_singleton] at hnew
                subst hnew
                refine ⟨hane, ?_⟩
                show ∀ c ∈ t.added_lines, PyStr.pyStrip c ≠ ""
                rw [eAdd]
                exact h4
          · rcases hucase with ⟨ha, _, _, _⟩ | ⟨ha, _, _⟩
            · rw [ha, eAdd]
              exact h4
            · rw [ha]
              intro c hc
              cases hc
          · rw [uf1, eFile]
            exact hF
          · intro hh
            obtain ⟨hp, hd⟩ := hH hh
            rw [uf3, uf4]
            exact ⟨ePos.mpr hp, eHunkNe hd⟩
          · rcases hucase with ⟨ha, hb, _, _⟩ | ⟨ha, hb, _⟩
            · rw [ha, hb, eAdd, eNum]
              exact hP2
            · rw [hb]
              intro _
              rfl
          · rcases hucase with ⟨ha, hb, _, _⟩ | ⟨ha, hb, _⟩
            · intro hne
              rw [ha, eAdd] at hne
              obtain ⟨hf', hd', hhd⟩ := hP hne
              refine ⟨by rw [uf1, eFile]; exact hf', by rw [uf4]; exact eHunkNe hd', ?_⟩
              intro n hn
              rw [hb, eNum] at hn
              obtain ⟨hk, hl⟩ := hhd n hn
              exact ⟨by rw [uf5, uf1, eKey, eFile]; exact hk,
                by rw [uf5, uf1, eFile]; exact eMono _ _ hl⟩
            · intro hne
              rw [ha] at hne
              exact absurd rfl hne
          · rcases hucase with ⟨_, _, hc, _⟩ | ⟨_, _, hane, _, _, n, rest, hnum, hc⟩
            · rw [hc, eSug, uf5]
              intro sug hmem
              obtain ⟨hk, hl⟩ := hS sug hmem
              exact ⟨by rw [eKey]; exact hk, eMono _ _ hl⟩
            · rw [hc, uf5]
              intro sug hmem
              rcases List.mem_append.mp hmem with hold | hnew
              · rw [eSug] at hold
                obtain ⟨hk, hl⟩ := hS sug hold
                exact ⟨by rw [eKey]; exact hk, eMono _ _ hl⟩
              · rw [List.mem_singleton] at hnew
                subst hnew
                have hsadd : s.added_lines ≠ [] := by rw [← eAdd]; exact hane
                obtain ⟨_, _, hhd⟩ := hP hsadd
                have hn' : s.added_line_numbers.head? = some n := by
                  rw [← eNum, hnum]
                  rfl
                obtain ⟨hk, hl⟩ := hhd n hn'
                refine ⟨?_, ?_⟩
                · show Wsp.dictHasKey t.modified_files t.current_file = true
                  rw [eKey, eFile]
                  exact hk
                · show Wsp.dictLineMem t.modified_files t.current_file n = true
                  rw [eFile]
                  exact eMono _ _ hl

/-- C2 amended: for every diff text that is well-formed in the sense
of `wfLines` — no addition line before a file header with a non-empty
path and a hunk header of its file, which every git-produced diff
satisfies — parsing succeeds and every emitted suggestion has
`is_in_diff = true` against the diff's own modified-line set.  (For
arbitrary text the property fails: a block collected before the first
file header can be emitted with a stale line number, see the
counterexample.) -/
theorem c2_amended (diff_text : String)
    (hwf : Wsp.wfLines (PyStr.pySplitlines diff_text) false false = true) :
    ∃ sugs, Wsp.parse_diff diff_text = .ok sugs ∧
      ∀ sug ∈ sugs, sug.is_in_diff = true := by
  have hInv : Wsp.C2Inv false false Wsp.initState := by
    refine ⟨initState_master, ?_, ?_, ?_, ?_, ?_⟩
    · intro h
      exact absurd h (by decide)
    · intro h
      exact absurd h (by decide)
    · intro _
      rfl
    · intro h
      exact absurd rfl h
    · intro sug h
      exact absurd h (List.not_mem_nil _)
  obtain ⟨s, hs, hM, hP2, hP, hS⟩ :=
    runLines_C2 (PyStr.pySplitlines diff_text) false false Wsp.initState hwf hInv
  obtain ⟨t, het, tf1, tf2, tf3, tf4, tf5, tf6, tf7, hcase⟩ :=
    emitPending_spec (s.position_in_hunk - s.added_lines.length + 1) s hM.1
  have hTS : ∀ sug ∈ t.suggestions,
      Wsp.inModified t.modified_files sug.file sug.line := by
    rcases hcase with ⟨_, _, hc, _⟩ | ⟨_, _, hane, _, _, n, rest, hnum, hc⟩
    · rw [hc, tf5]
      exact hS
    · rw [hc, tf5]
      intro sug hmem
      rcases List.mem_append.mp hmem with hold | hnew
      · exact hS sug hold
      · rw [List.mem_singleton] at hnew
        subst hnew
        obtain ⟨_, _, hhd⟩ := hP hane
        exact hhd n (by rw [hnum]; rfl)
  refine ⟨Wsp.classify t, ?_, ?_⟩
  · unfold Wsp.parse_diff
    rw [hs]
    show (match Wsp.finishParse s with
      | Except.error e => Except.error e
      | Except.ok u => Except.ok (Wsp.classify u)) = Except.ok (Wsp.classify t)
    unfold Wsp.finishParse
    rw [het]
  · intro sug hmem
    unfold Wsp.classify at hmem
    rw [List.mem_map] at hmem
    obtain ⟨orig, horig, heq⟩ := hmem
    subst heq
    show (Wsp.dictHasKey t.modified_files orig.file &&
      Wsp.dictLineMem t.modified_files orig.file orig.line) = true
    obtain ⟨hk, hl⟩ := hTS orig horig
    rw [hk, hl]
    rfl

/-- Witness for C2 amended: the Scenario A diff (in `diff --git`
form) is well-formed, parses, and all its suggestions carry
`is_in_diff = true`. -/
theorem c2_amended_witness :
    Wsp.wfLines (PyStr.pySplitlines
      "diff --git a/f b/f\n@@ -1,2 +1,3 @@\n line1\n+added1\n+added2\n line2\n")
      false false = true ∧
    ∃ sugs, Wsp.parse_diff
        "diff --git a/f b/f\n@@ -1,2 +1,3 @@\n line1\n+added1\n+added2\n line2\n" =
        .ok sugs ∧ ∀ sug ∈ sugs, sug.is_in_diff = true :=
  ⟨by decide, c2_amended
    "diff --git a/f b/f\n@@ -1,2 +1,3 @@\n line1\n+added1\n+added2\n line2\n" (by decide)⟩

/-- A successful prefix test pins down the first character. -/
theorem data_head_of_startswith (l p : String) (c : Char) (restp : List Char)
    (hp : p.data = c :: restp) (h : PyStr.pyStartswith l p = true) :
    ∃ rest, l.data = c :: rest := by
  unfold PyStr.pyStartswith at h
  rw [hp] at h
  revert h
  rcases hl : l.data with _ | ⟨d, rest⟩
  · intro h
    exact Bool.noConfusion h
  · intro h
    have h' : (c == d && restp.isPrefixOf rest) = true := h
    rw [Bool.and_eq_true, beq_iff_eq] at h'
    exact ⟨rest, by rw [h'.1]⟩

/-- A line whose first character is not `@` is not a hunk header. -/
theorem hunkHeaderMatch_none_of_head (l : String) (c : Char) (rest : List Char)
    (hl : l.data = c :: rest) (hc : c ≠ '@') : Wsp.hunkHeaderMatch l = none := by
  unfold Wsp.hunkHeaderMatch
  rw [hl]
  split
  · rename_i r heq
    injection heq with h1 _
    exact absurd h1 hc
  · rfl

/-- A file-header line is never also a hunk header. -/
theorem hunkHeaderMatch_none_of_file (l : String) (f : String)
    (hfm : Wsp.fileHeaderMatch l = some f) : Wsp.hunkHeaderMatch l = none := by
  have hsw : PyStr.pyStartswith l "diff --git a/" = true := by
    by_contra hc
    unfold Wsp.fileHeaderMatch at hfm
    rw [if_neg hc] at hfm
    cases hfm
  obtain ⟨rest, hl⟩ := data_head_of_startswith l "diff --git a/" 'd' "iff --git a/".data
    rfl hsw
  exact hunkHeaderMatch_none_of_head l 'd' rest hl (by decide)

/-- `isHeaderLine` is true on file-header lines. -/
theorem isHeaderLine_of_file (l : String) (f : String)
    (hfm : Wsp.fileHeaderMatch l = some f) : Wsp.isHeaderLine l = true := by
  unfold Wsp.isHeaderLine
  rw [hfm]
  rfl

/-- `isHeaderLine` is true on hunk-header lines. -/
theorem isHeaderLine_of_hunk (l : String) (p : Nat × Nat)
    (hfm : Wsp.fileHeaderMatch l = none) (hhm : Wsp.hunkHeaderMatch l = some p) :
    Wsp.isHeaderLine l = true := by
  unfold Wsp.isHeaderLine
  rw [hfm, hhm]
  rfl

/-- `isHeaderLine` is false on other lines. -/
theorem isHeaderLine_of_other (l : String)
    (hfm : Wsp.fileHeaderMatch l = none) (hhm : Wsp.hunkHeaderMatch l = none) :
    Wsp.isHeaderLine l = false := by
  unfold Wsp.isHeaderLine
  rw [hfm, hhm]
  rfl

/-- The state component of the ghost-instrumented run is exactly the
plain run. -/
theorem gRun_fst (ls : List String) (s : Wsp.PState) (g : Wsp.Ghost)
    (s' : Wsp.PState) (g' : Wsp.Ghost)
    (h : Wsp.gRun ls (s, g) = .ok (s', g')) : Wsp.runLines ls s = .ok s' := by
  induction ls generalizing s g with
  | nil =>
    have h' : (Except.ok (s, g) : Except String (Wsp.PState × Wsp.Ghost)) =
        .ok (s', g') := h
    injection h' with h'
    rw [show s' = s from (congrArg Prod.fst h').symm]
    rfl
  | cons l ls ih =>
    cases hst : Wsp.stepLine l s with
    | error e =>
      have h' : Wsp.gRun (l :: ls) (s, g) = .error e := by
        simp only [Wsp.gRun, Wsp.gStep]
        rw [hst]
      rw [h] at h'
      cases h'
    | ok t =>
      have h' : Wsp.gRun (l :: ls) (s, g) =
          Wsp.gRun ls (t, Wsp.ghostUpdate l s t g) := by
        simp only [Wsp.gRun, Wsp.gStep]
        rw [hst]
      rw [h'] at h
      have := ih t (Wsp.ghostUpdate l s t g) h
      simp only [Wsp.runLines]
      rw [hst]
      exact this

/-- The suggestion component of the ghost-instrumented parse is
exactly the plain parse. -/
theorem gParse_fst (text : String) (sugs : List Wsp.CodeSuggestion)
    (metas : List Wsp.GMeta) (h : Wsp.gParse text = .ok (sugs, metas)) :
    Wsp.parse_diff text = .ok sugs := by
  unfold Wsp.gParse at h
  cases hr : Wsp.gRun (PyStr.pySplitlines text) (Wsp.initState, ⟨0, none, []⟩) with
  | error e =>
    rw [hr] at h
    cases h
  | ok sg =>
    obtain ⟨s, g⟩ := sg
    rw [hr] at h
    have h2 : (match Wsp.gFinish (s, g) with
        | Except.error e => Except.error e
        | Except.ok (u, g2) => Except.ok (Wsp.classify u, g2.metas)) =
        Except.ok (sugs, metas) := h
    unfold Wsp.gFinish at h2
    cases hf : Wsp.finishParse s with
    | error e =>
      rw [hf] at h2
      cases h2
    | ok t =>
      rw [hf] at h2
      have h3 : (Except.ok (Wsp.classify t,
          (if s.suggestions.length < t.suggestions.length then
            g.metas ++ [⟨g.hunk_new_start, g.block_first_pos, false⟩]
          else g.metas)) : Except String (List Wsp.CodeSuggestion × List Wsp.GMeta)) =
          Except.ok (sugs, metas) := h2
      injection h3 with h3
      unfold Wsp.parse_diff
      rw [gRun_fst (PyStr.pySplitlines text) Wsp.initState ⟨0, none, []⟩ s g hr]
      show (match Wsp.finishParse s with
        | Except.error e => Except.error e
        | Except.ok u => Except.ok (Wsp.classify u)) = Except.ok sugs
      rw [hf]
      rw [show sugs = Wsp.classify t from (congrArg Prod.fst h3).symm]

/-- Ghost bookkeeping: the recorded hunk start is unchanged on
non-hunk-header lines. -/
theorem ghostUpdate_ns_of_none (l : String) (s w : Wsp.PState) (g : Wsp.Ghost)
    (hhm : Wsp.hunkHeaderMatch l = none) :
    (Wsp.ghostUpdate l s w g).hunk_new_start = g.hunk_new_start := by
  have h0 : (Wsp.ghostUpdate l s w g).hunk_new_start =
      match Wsp.hunkHeaderMatch l with
      | some p => ((p.2 : Nat) : Int)
      | none => g.hunk_new_start := rfl
  rw [h0, hhm]

/-- Ghost bookkeeping: the recorded hunk start becomes `newStart` on a
hunk-header line. -/
theorem ghostUpdate_ns_of_hunk (l : String) (s w : Wsp.PState) (g : Wsp.Ghost)
    (o ns : Nat) (hhm : Wsp.hunkHeaderMatch l = some (o, ns)) :
    (Wsp.ghostUpdate l s w g).hunk_new_start = (ns : Int) := by
  have h0 : (Wsp.ghostUpdate l s w g).hunk_new_start =
      match Wsp.hunkHeaderMatch l with
      | some p => ((p.2 : Nat) : Int)
      | none => g.hunk_new_start := rfl
  rw [h0, hhm]

/-- Ghost bookkeeping: no metadata is recorded when no suggestion was
emitted. -/
theorem ghostUpdate_metas_of_same (l : String) (s w : Wsp.PState) (g : Wsp.Ghost)
    (hlen : w.suggestions.length = s.suggestions.length) :
    (Wsp.ghostUpdate l s w g).metas = g.metas := by
  have h0 : (Wsp.ghostUpdate l s w g).metas =
      if s.suggestions.length < w.suggestions.length then
        g.metas ++ [⟨g.hunk_new_start, g.block_first_pos, Wsp.isHeaderLine l⟩]
      else g.metas := rfl
  rw [h0, hlen, if_neg (Nat.lt_irrefl _)]

/-- Ghost bookkeeping: one metadata record is appended when a
suggestion was emitted. -/
theorem ghostUpdate_metas_of_append (l : String) (s w : Wsp.PState) (g : Wsp.Ghost)
    (x : Wsp.CodeSuggestion) (hsug : w.suggestions = s.suggestions ++ [x]) :
    (Wsp.ghostUpdate l s w g).metas =
      g.metas ++ [⟨g.hunk_new_start, g.block_first_pos, Wsp.isHeaderLine l⟩] := by
  have h0 : (Wsp.ghostUpdate l s w g).metas =
      if s.suggestions.length < w.suggestions.length then
        g.metas ++ [⟨g.hunk_new_start, g.block_first_pos, Wsp.isHeaderLine l⟩]
      else g.metas := rfl
  rw [h0, hsug, if_pos (by simp)]

/-- Ghost bookkeeping: the recorded first position is cleared when no
block is pending after the step. -/
theorem ghostUpdate_bfp_of_empty (l : String) (s w : Wsp.PState) (g : Wsp.Ghost)
    (hw : w.added_lines = []) :
    (Wsp.ghostUpdate l s w g).block_first_pos = none := by
  have h0 : (Wsp.ghostUpdate l s w g).block_first_pos =
      if w.added_lines.isEmpty then none
      else if s.added_lines.isEmpty then some w.position_in_hunk
      else g.block_first_pos := rfl
  rw [h0, if_pos (by simp [hw])]

/-- Ghost bookkeeping: the recorded first position is the current
position counter when a block opens. -/
theorem ghostUpdate_bfp_opened (l : String) (s w : Wsp.PState) (g : Wsp.Ghost)
    (hw : w.added_lines ≠ []) (hs : s.added_lines = []) :
    (Wsp.ghostUpdate l s w g).block_first_pos = some w.position_in_hunk := by
  have h0 : (Wsp.ghostUpdate l s w g).block_first_pos =
      if w.added_lines.isEmpty then none
      else if s.added_lines.isEmpty then some w.position_in_hunk
      else g.block_first_pos := rfl
  rw [h0, if_neg (by simp [hw]), if_pos (by simp [hs])]

/-- Ghost bookkeeping: the recorded first position is kept while the
block stays pending. -/
theorem ghostUpdate_bfp_cont (l : String) (s w : Wsp.PState) (g : Wsp.Ghost)
    (hw : w.added_lines ≠ []) (hs : s.added_lines ≠ []) :
    (Wsp.ghostUpdate l s w g).block_first_pos = g.block_first_pos := by
  have h0 : (Wsp.ghostUpdate l s w g).block_first_pos =
      if w.added_lines.isEmpty then none
      else if s.added_lines.isEmpty then some w.position_in_hunk
      else g.block_first_pos := rfl
  rw [h0, if_neg (by simp [hw]), if_neg (by simp [hs])]

/-- Unfolding one ghost-instrumented loop step. -/
theorem gRun_cons_of_step (l : String) (ls : List String) (s w : Wsp.PState)
    (g : Wsp.Ghost) (hstep : Wsp.stepLine l s = .ok w) :
    Wsp.gRun (l :: ls) (s, g) = Wsp.gRun ls (w, Wsp.ghostUpdate l s w g) := by
  simp only [Wsp.gRun, Wsp.gStep]
  rw [hstep]


/-- Membership in the zip of two one-element extensions. -/
theorem mem_zip_snoc {a b : Type} (xs : List a) (ys : List b) (x : a) (y : b)
    (h : xs.length = ys.length) (p : a × b)
    (hp : p ∈ (xs ++ [x]).zip (ys ++ [y])) : p ∈ xs.zip ys ∨ p = (x, y) := by
  rw [List.zip_append h] at hp
  rcases List.mem_append.mp hp with h1 | h2
  · exact Or.inl h1
  · right
    simpa using h2

/-- Over a well-formed line list, the ghost-instrumented loop
maintains the hunk-start bound: every emitted suggestion's anchor line
is at least the `newStart` recorded for it. -/
theorem gRun_C5 (ls : List String) (fs hs : Bool) (s : Wsp.PState) (g : Wsp.Ghost)
    (hwf : Wsp.wfLines ls fs hs = true) (hInv : Wsp.C5Inv fs hs s g) :
    ∃ s' g', Wsp.gRun ls (s, g) = .ok (s', g') ∧ Wsp.MasterInv s' ∧
      (s'.added_lines = [] → s'.added_line_numbers = []) ∧
      (s'.added_lines ≠ [] → s'.current_file ≠ "" ∧ s'.current_diff_hunk ≠ [] ∧
        ∀ n, s'.added_line_numbers.head? = some n → g'.hunk_new_start ≤ n) ∧
      g'.metas.length = s'.suggestions.length ∧
      (∀ p ∈ s'.suggestions.zip g'.metas, p.2.gNewStart ≤ p.1.line) := by
  induction ls generalizing fs hs s g with
  | nil =>
    obtain ⟨hM, hF, hH, hP2, hP5, hCS, hL, hEM⟩ := hInv
    exact ⟨s, g, rfl, hM, hP2, hP5, hL, hEM⟩
  | cons l ls ih =>
    obtain ⟨hM, hF, hH, hP2, hP5, hCS, hL, hEM⟩ := hInv
    obtain ⟨h1, h2, h3, h4⟩ := hM
    unfold Wsp.wfLines at hwf
    cases hfm : Wsp.fileHeaderMatch l with
    | some f =>
      rw [hfm, Bool.and_eq_true] at hwf
      have hf : f ≠ "" := by simpa using hwf.1
      have hhm : Wsp.hunkHeaderMatch l = none := hunkHeaderMatch_none_of_file l f hfm
      obtain ⟨t, het, tf1, tf2, tf3, tf4, tf5, tf6, tf7, hcase⟩ :=
        emitPending_spec s.position_in_hunk s h1
      have htempty : t.added_lines = [] ∧ t.added_line_numbers = [] := by
        rcases hcase with ⟨ha, hb, _, hdisj⟩ | ⟨ha, hb, _⟩
        · have hsadd : s.added_lines = [] := by
            rcases hdisj with hd | hd | hd
            · exact hd
            · by_contra hne
              exact absurd hd (hP5 hne).1
            · by_contra hne
              exact absurd hd (hP5 hne).2.1
          exact ⟨ha.trans hsadd, hb.trans (hP2 hsadd)⟩
        · exact ⟨ha, hb⟩
      have hstep0 : Wsp.stepLine l s = .ok { t with
          current_file := f
          modified_files := Wsp.dictEnsureKey t.modified_files f
          current_diff_hunk := []
          removed_line := none
          removed_line_number := 0 } := by
        rw [stepLine_eq_file l s f hfm, het]
      obtain ⟨w, hstep, wSug, wFile, wCS, wPos, wAdd, wNum, wHunk, wMod⟩ :
          ∃ w, Wsp.stepLine l s = .ok w ∧
            w.suggestions = t.suggestions ∧
            w.current_file = f ∧
            w.current_hunk_start_line = t.current_hunk_start_line ∧
            w.position_in_hunk = t.position_in_hunk ∧
            w.added_lines = t.added_lines ∧
            w.added_line_numbers = t.added_line_numbers ∧
            w.current_diff_hunk = ([] : List String) ∧
            w.modified_files = Wsp.dictEnsureKey t.modified_files f :=
        ⟨_, hstep0, rfl, rfl, rfl, rfl, rfl, rfl, rfl, rfl⟩
      rw [gRun_cons_of_step l ls s w g hstep]
      refine ih true false w (Wsp.ghostUpdate l s w g) hwf.2
        ⟨⟨?_, ?_, ?_, ?_⟩, ?_, ?_, ?_, ?_, ?_, ?_, ?_⟩
      · intro hne
        rw [wAdd, htempty.1] at hne
        exact absurd rfl hne
      · intro _
        rw [wFile, wMod]
        exact dictHasKey_ensure_self t.modified_files f
      · rw [wSug]
        rcases hcase with ⟨_, _, hcs, _⟩ | ⟨_, _, hane, _, _, n, rest, hnum, hcs⟩
        · rw [hcs]
          exact h3
        · rw [hcs]
          intro sug hmem
          rcases List.mem_append.mp hmem with hold | hnew
          · exact h3 sug hold
          · rw [List.mem_singleton] at hnew
            subst hnew
            exact ⟨hane, h4⟩
      · rw [wAdd, htempty.1]
        intro c hc
        cases hc
      · intro _
        rw [wFile]
        exact hf
      · intro hcontra
        exact absurd hcontra (by decide)
      · intro _
        rw [wNum, htempty.2]
      · intro hne
        rw [wAdd, htempty.1] at hne
        exact absurd rfl hne
      · rw [ghostUpdate_ns_of_none l s w g hhm, wCS, tf2]
        exact hCS
      · rcases hcase with ⟨_, _, hcs, _⟩ | ⟨_, _, hane, _, _, n, rest, hnum, hcs⟩
        · rw [ghostUpdate_metas_of_same l s w g (by rw [wSug, hcs]), wSug, hcs]
          exact hL
        · rw [ghostUpdate_metas_of_append l s w g _ (by rw [wSug, hcs]), wSug, hcs]
          simp [hL]
      · rcases hcase with ⟨_, _, hcs, _⟩ | ⟨_, _, hane, _, _, n, rest, hnum, hcs⟩
        · rw [ghostUpdate_metas_of_same l s w g (by rw [wSug, hcs]), wSug, hcs]
          exact hEM
        · rw [ghostUpdate_metas_of_append l s w g _ (by rw [wSug, hcs]), wSug, hcs]
          intro p hp
          rcases mem_zip_snoc s.suggestions g.metas _ _ hL.symm p hp with hold | hpe
          · exact hEM p hold
          · rw [hpe]
            show g.hunk_new_start ≤ n
            obtain ⟨_, _, hhd⟩ := hP5 hane
            exact hhd n (by rw [hnum]; rfl)
    | none =>
      cases hhm : Wsp.hunkHeaderMatch l with
      | some pr =>
        obtain ⟨o, ns⟩ := pr
        rw [hfm, hhm] at hwf
        have hwfh : Wsp.wfLines ls fs fs = true := hwf
        obtain ⟨t, het, tf1, tf2, tf3, tf4, tf5, tf6, tf7, hcase⟩ :=
          emitPending_spec s.position_in_hunk s h1
        have htempty : t.added_lines = [] ∧ t.added_line_numbers = [] := by
          rcases hcase with ⟨ha, hb, _, hdisj⟩ | ⟨ha, hb, _⟩
          · have hsadd : s.added_lines = [] := by
              rcases hdisj with hd | hd | hd
              · exact hd
              · by_contra hne
                exact absurd hd (hP5 hne).1
              · by_contra hne
                exact absurd hd (hP5 hne).2.1
            exact ⟨ha.trans hsadd, hb.trans (hP2 hsadd)⟩
          · exact ⟨ha, hb⟩
        have hstep0 : Wsp.stepLine l s = .ok { t with
            current_hunk_start_line := (ns : Int) - 1
            position_in_hunk := 1
            current_diff_hunk := [l]
            removed_line := none
            removed_line_number := (o : Int) - 1 } := by
          rw [stepLine_eq_hunk l s o ns hfm hhm, het]
        obtain ⟨w, hstep, wSug, wFile, wCS, wPos, wAdd, wNum, wHunk, wMod⟩ :
            ∃ w, Wsp.stepLine l s = .ok w ∧
              w.suggestions = t.suggestions ∧
              w.current_file = t.current_file ∧
              w.current_hunk_start_line = (ns : Int) - 1 ∧
              w.position_in_hunk = 1 ∧
              w.added_lines = t.added_lines ∧
              w.added_line_numbers = t.added_line_numbers ∧
              w.current_diff_hunk = [l] ∧
              w.modified_files = t.modified_files :=
          ⟨_, hstep0, rfl, rfl, rfl, rfl, rfl, rfl, rfl, rfl⟩
        rw [gRun_cons_of_step l ls s w g hstep]
        refine ih fs fs w (Wsp.ghostUpdate l s w g) hwfh
          ⟨⟨?_, ?_, ?_, ?_⟩, ?_, ?_, ?_, ?_, ?_, ?_, ?_⟩
        · intro hne
          rw [wAdd, htempty.1] at hne
          exact absurd rfl hne
        · intro hfe
          rw [wFile, tf1] at hfe
          rw [wFile, wMod, tf1, tf5]
          exact h2 hfe
        · rw [wSug]
          rcases hcase with ⟨_, _, hcs, _⟩ | ⟨_, _, hane, _, _, n, rest, hnum, hcs⟩
          · rw [hcs]
            exact h3
          · rw [hcs]
            intro sug hmem
            rcases List.mem_append.mp hmem with hold | hnew
            · exact h3 sug hold
            · rw [List.mem_singleton] at hnew
              subst hnew
              exact ⟨hane, h4⟩
        · rw [wAdd, htempty.1]
          intro c hc
          cases hc
        · intro hfs
          rw [wFile, tf1]
          exact hF hfs
        · intro _
          rw [wPos, wHunk]
          refine ⟨by decide, by simp⟩
        · intro _
          rw [wNum, htempty.2]
        · intro hne
          rw [wAdd, htempty.1] at hne
          exact absurd rfl hne
        · rw [ghostUpdate_ns_of_hunk l s w g o ns hhm, wCS]
        · rcases hcase with ⟨_, _, hcs, _⟩ | ⟨_, _, hane, _, _, n, rest, hnum, hcs⟩
          · rw [ghostUpdate_metas_of_same l s w g (by rw [wSug, hcs]), wSug, hcs]
            exact hL
          · rw [ghostUpdate_metas_of_append l s w g _ (by rw [wSug, hcs]), wSug, hcs]
            simp [hL]
        · rcases hcase with ⟨_, _, hcs, _⟩ | ⟨_, _, hane, _, _, n, rest, hnum, hcs⟩
          · rw [ghostUpdate_metas_of_same l s w g (by rw [wSug, hcs]), wSug, hcs]
            exact hEM
          · rw [ghostUpdate_metas_of_append l s w g _ (by rw [wSug, hcs]), wSug, hcs]
            intro p hp
            rcases mem_zip_snoc s.suggestions g.metas _ _ hL.symm p hp with hold | hpe
            · exact hEM p hold
            · rw [hpe]
              show g.hunk_new_start ≤ n
              obtain ⟨_, _, hhd⟩ := hP5 hane
              exact hhd n (by rw [hnum]; rfl)
      | none =>
        rw [hfm, hhm] at hwf
        have hwf0 : (if Wsp.isAddLine l = true then fs && hs && Wsp.wfLines ls fs hs
            else Wsp.wfLines ls fs hs) = true := hwf
        obtain ⟨hcs, hcf, hccs, hcp, hca, hcn, hcm, hcr, hcrn⟩ := hunkCollect_fields l s
        obtain ⟨hbs, hbf, hbcs, hbh, hba, hbn, hbm, hbr, hbrn⟩ :=
          posBump_fields (Wsp.hunkCollect l s)
        have h2' : (Wsp.posBump (Wsp.hunkCollect l s)).current_file ≠ "" →
            Wsp.dictHasKey (Wsp.posBump (Wsp.hunkCollect l s)).modified_files
              (Wsp.posBump (Wsp.hunkCollect l s)).current_file = true := by
          rw [hbf, hcf, hbm, hcm]
          exact h2
        obtain ⟨t, hts, t1, t2, t3, t4, t5, t6, t7, t8, t9, t10⟩ :=
          trackModified_spec l (Wsp.posBump (Wsp.hunkCollect l s)) h2'
        have hstep0 : Wsp.stepLine l s = Wsp.collectAdded l t := by
          rw [stepLine_eq_other l s hfm hhm, hts]
        have eAdd : t.added_lines = s.added_lines := by rw [t5, hba, hca]
        have eNum : t.added_line_numbers = s.added_line_numbers := by rw [t6, hbn, hcn]
        have eSug : t.suggestions = s.suggestions := by rw [t1, hbs, hcs]
        have eFile : t.current_file = s.current_file := by rw [t2, hbf, hcf]
        have eKey : ∀ k, Wsp.dictHasKey t.modified_files k =
            Wsp.dictHasKey s.modified_files k := by
          intro k
          rw [t8 k, hbm, hcm]
        have ePos : 0 < t.position_in_hunk ↔ 0 < s.position_in_hunk := by
          rw [t3, posBump_pos, hcp]
        have eHunkNe : s.current_diff_hunk ≠ [] → t.current_diff_hunk ≠ [] := by
          intro hne hc
          rw [t4, hbh] at hc
          exact hne ((hunkCollect_hunk_empty l s).mp hc)
        have eCS : s.current_hunk_start_line ≤ t.current_hunk_start_line := by
          rcases t7 with h | h <;> rw [h, hbcs, hccs] <;> omega
        cases hia : Wsp.isAddLine l with
        | true =>
          have hwf1 : (fs && hs && Wsp.wfLines ls fs hs) = true := by
            rw [hia] at hwf0
            simpa using hwf0
          rw [Bool.and_eq_true, Bool.and_eq_true] at hwf1
          obtain ⟨⟨hfs, hhs⟩, hwf'⟩ := hwf1
          have hfileS : s.current_file ≠ "" := hF hfs
          obtain ⟨hposS, hhunkS⟩ := hH hhs
          obtain ⟨hcs1, hmem1⟩ := t10 hia (by rw [hbf, hcf]; exact hfileS)
            (by rw [posBump_pos, hcp]; exact hposS)
          have hcsS : t.current_hunk_start_line = s.current_hunk_start_line + 1 := by
            rw [hcs1, hbcs, hccs]
          by_cases hws : PyStr.pyStrip (PyStr.pyDropChars l 1) = ""
          · have hstep : Wsp.stepLine l s = .ok t := by
              rw [hstep0]
              exact collectAdded_ws l t hia hws
            rw [gRun_cons_of_step l ls s t g hstep]
            refine ih fs hs t (Wsp.ghostUpdate l s t g) hwf'
              ⟨⟨?_, ?_, ?_, ?_⟩, ?_, ?_, ?_, ?_, ?_, ?_, ?_⟩
            · rw [eAdd, eNum]
              exact h1
            · intro hfe
              rw [eFile] at hfe
              rw [eKey, eFile]
              exact h2 hfe
            · rw [eSug]
              exact h3
            · rw [eAdd]
              exact h4
            · intro _
              rw [eFile]
              exact hfileS
            · intro hh
              obtain ⟨hp, hd⟩ := hH hh
              exact ⟨ePos.mpr hp, eHunkNe hd⟩
            · rw [eAdd, eNum]
              exact hP2
            · intro hne
              rw [eAdd] at hne
              obtain ⟨hf', hd', hhd⟩ := hP5 hne
              refine ⟨by rw [eFile]; exact hf', eHunkNe hd', ?_⟩
              intro n hn
              rw [eNum] at hn
              rw [ghostUpdate_ns_of_none l s t g hhm]
              exact hhd n hn
            · rw [ghostUpdate_ns_of_none l s t g hhm]
              calc g.hunk_new_start - 1 ≤ s.current_hunk_start_line := hCS
                _ ≤ t.current_hunk_start_line := eCS
            · rw [ghostUpdate_metas_of_same l s t g (by rw [eSug]), eSug]
              exact hL
            · rw [ghostUpdate_metas_of_same l s t g (by rw [eSug]), eSug]
              exact hEM
          · by_cases hemp : t.added_lines = []
            · have hsadd : s.added_lines = [] := by rw [← eAdd]; exact hemp
              have hsnum : t.added_line_numbers = [] := by
                rw [eNum]
                exact hP2 hsadd
              have hstep0' : Wsp.stepLine l s = .ok { t with
                  added_line_numbers := t.added_line_numbers ++ [t.current_hunk_start_line]
                  added_lines := t.added_lines ++ [PyStr.pyDropChars l 1] } := by
                rw [hstep0]
                exact collectAdded_first l t hia hws hemp
              obtain ⟨w, hstep, wSug, wFile, wCS, wPos, wAdd, wNum, wHunk, wMod⟩ :
                  ∃ w, Wsp.stepLine l s = .ok w ∧
                    w.suggestions = t.suggestions ∧
                    w.current_file = t.current_file ∧
                    w.current_hunk_start_line = t.current_hunk_start_line ∧
                    w.position_in_hunk = t.position_in_hunk ∧
                    w.added_lines = t.added_lines ++ [PyStr.pyDropChars l 1] ∧
                    w.added_line_numbers
                      = t.added_line_numbers ++ [t.current_hunk_start_line] ∧
                    w.current_diff_hunk = t.current_diff_hunk ∧
                    w.modified_files = t.modified_files :=
                ⟨_, hstep0', rfl, rfl, rfl, rfl, rfl, rfl, rfl, rfl⟩
              rw [gRun_cons_of_step l ls s w g hstep]
              refine ih fs hs w (Wsp.ghostUpdate l s w g) hwf'
                ⟨⟨?_, ?_, ?_, ?_⟩, ?_, ?_, ?_, ?_, ?_, ?_, ?_⟩
              · intro _
                rw [wNum]
                simp
              · intro hfe
                rw [wFile, eFile] at hfe
                rw [wFile, wMod, eKey, eFile]
                exact h2 hfe
              · rw [wSug, eSug]
                exact h3
              · rw [wAdd]
                intro c hc
                rcases List.mem_append.mp hc with hold | hnew
                · rw [eAdd] at hold
                  exact h4 c hold
                · rw [List.mem_singleton] at hnew
                  subst hnew
                  exact hws
              · intro _
                rw [wFile, eFile]
                exact hfileS
              · intro hh
                obtain ⟨hp, hd⟩ := hH hh
                rw [wPos, wHunk]
                exact ⟨ePos.mpr hp, eHunkNe hd⟩
              · intro hc
                rw [wAdd] at hc
                exact absurd hc (by simp)
              · intro _
                refine ⟨by rw [wFile, eFile]; exact hfileS,
                  by rw [wHunk]; exact eHunkNe hhunkS, ?_⟩
                intro n hn
                rw [wNum, hsnum] at hn
                simp only [List.nil_append, List.head?_cons, Option.some.injEq] at hn
                subst hn
                rw [ghostUpdate_ns_of_none l s w g hhm, hcsS]
                omega
              · rw [ghostUpdate_ns_of_none l s w g hhm, wCS, hcsS]
                omega
              · rw [ghostUpdate_metas_of_same l s w g (by rw [wSug, eSug]), wSug, eSug]
                exact hL
              · rw [ghostUpdate_metas_of_same l s w g (by rw [wSug, eSug]), wSug, eSug]
                exact hEM
            · have hsadd : s.added_lines ≠ [] := by rw [← eAdd]; exact hemp
              have hstep0' : Wsp.stepLine l s = .ok { t with
                  added_lines := t.added_lines ++ [PyStr.pyDropChars l 1] } := by
                rw [hstep0]
                exact collectAdded_next l t hia hws hemp
              obtain ⟨w, hstep, wSug, wFile, wCS, wPos, wAdd, wNum, wHunk, wMod⟩ :
                  ∃ w, Wsp.stepLine l s = .ok w ∧
                    w.suggestions = t.suggestions ∧
                    w.current_file = t.current_file ∧
                    w.current_hunk_start_line = t.current_hunk_start_line ∧
                    w.position_in_hunk = t.position_in_hunk ∧
                    w.added_lines = t.added_lines ++ [PyStr.pyDropChars l 1] ∧
                    w.added_line_numbers = t.added_line_numbers ∧
                    w.current_diff_hunk = t.current_diff_hunk ∧
                    w.modified_files = t.modified_files :=
                ⟨_, hstep0', rfl, rfl, rfl, rfl, rfl, rfl, rfl, rfl⟩
              rw [gRun_cons_of_step l ls s w g hstep]
              refine ih fs hs w (Wsp.ghostUpdate l s w g) hwf'
                ⟨⟨?_, ?_, ?_, ?_⟩, ?_, ?_, ?_, ?_, ?_, ?_, ?_⟩
              · intro _
                rw [wNum, eNum]
                exact h1 hsadd
              · intro hfe
                rw [wFile, eFile] at hfe
                rw [wFile, wMod, eKey, eFile]
                exact h2 hfe
              · rw [wSug, eSug]
                exact h3
              · rw [wAdd]
                intro c hc
                rcases List.mem_append.mp hc with hold | hnew
                · rw [eAdd] at hold
                  exact h4 c hold
                · rw [List.mem_singleton] at hnew
                  subst hnew
                  exact hws
              · intro _
                rw [wFile, eFile]
                exact hfileS
              · intro hh
                obtain ⟨hp, hd⟩ := hH hh
                rw [wPos, wHunk]
                exact ⟨ePos.mpr hp, eHunkNe hd⟩
              · intro hc
                rw [wAdd] at hc
                exact absurd hc (by simp)
              · intro _
                obtain ⟨hf', hd', hhd⟩ := hP5 hsadd
                refine ⟨by rw [wFile, eFile]; exact hf',
                  by rw [wHunk]; exact eHunkNe hd', ?_⟩
                intro n hn
                rw [wNum, eNum] at hn
                rw [ghostUpdate_ns_of_none l s w g hhm]
                exact hhd n hn
              · rw [ghostUpdate_ns_of_none l s w g hhm, wCS]
                calc g.hunk_new_start - 1 ≤ s.current_hunk_start_line := hCS
                  _ ≤ t.current_hunk_start_line := eCS
              · rw [ghostUpdate_metas_of_same l s w g (by rw [wSug, eSug]), wSug, eSug]
                exact hL
              · rw [ghostUpdate_metas_of_same l s w g (by rw [wSug, eSug]), wSug, eSug]
                exact hEM
        | false =>
          have hwf' : Wsp.wfLines ls fs hs = true := by
            rw [hia] at hwf0
            simpa using hwf0
          have ht1 : t.added_lines ≠ [] → t.added_line_numbers ≠ [] := by
            rw [eAdd, eNum]
            exact h1
          obtain ⟨u, heu, uf1, uf2, uf3, uf4, uf5, uf6, uf7, hucase⟩ :=
            emitPending_spec (t.position_in_hunk - t.added_lines.length) t ht1
          have hstep : Wsp.stepLine l s = .ok u := by
            rw [hstep0, collectAdded_other l t hia]
            exact heu
          rw [gRun_cons_of_step l ls s u g hstep]
          refine ih fs hs u (Wsp.ghostUpdate l s u g) hwf'
            ⟨⟨?_, ?_, ?_, ?_⟩, ?_, ?_, ?_, ?_, ?_, ?_, ?_⟩
          · rcases hucase with ⟨ha, hb, _, _⟩ | ⟨ha, hb, _⟩
            · rw [ha, hb, eAdd, eNum]
              exact h1
            · rw [ha]
              intro hc
              exact absurd rfl hc
          · intro hfe
            rw [uf1, eFile] at hfe
            rw [uf1, uf5, eKey, eFile]
            exact h2 hfe
          · rcases hucase with ⟨_, _, hcu, _⟩ | ⟨_, _, hane, _, _, n, rest, hnum, hcu⟩
            · rw [hcu, eSug]
              exact h3
            · rw [hcu]
              intro sug hmem
              rcases List.mem_append.mp hmem with hold | hnew
              · rw [eSug] at hold
                exact h3 sug hold
              · rw [List.mem_singleton] at hnew
                subst hnew
                refine ⟨hane, ?_⟩
                intro c hc
                have hc' : c ∈ t.added_lines := hc
                rw [eAdd] at hc'
                exact h4 c hc'
          · rcases hucase with ⟨ha, _, _, _⟩ | ⟨ha, _, _⟩
            · rw [ha, eAdd]
              exact h4
            · rw [ha]
              intro c hc
              cases hc
          · intro hfs
            rw [uf1, eFile]
            exact hF hfs
          · intro hh
            obtain ⟨hp, hd⟩ := hH hh
            rw [uf3, uf4]
            exact ⟨ePos.mpr hp, eHunkNe hd⟩
          · rcases hucase with ⟨ha, hb, _, _⟩ | ⟨ha, hb, _⟩
            · rw [ha, hb, eAdd, eNum]
              exact hP2
            · rw [hb]
              intro _
              rfl
          · rcases hucase with ⟨ha, hb, _, _⟩ | ⟨ha, hb, _⟩
            · intro hne
              rw [ha, eAdd] at hne
              obtain ⟨hf', hd', hhd⟩ := hP5 hne
              refine ⟨by rw [uf1, eFile]; exact hf',
                by rw [uf4]; exact eHunkNe hd', ?_⟩
              intro n hn
              rw [hb, eNum] at hn
              rw [ghostUpdate_ns_of_none l s u g hhm]
              exact hhd n hn
            · intro hne
              rw [ha] at hne
              exact absurd rfl hne
          · rw [ghostUpdate_ns_of_none l s u g hhm, uf2]
            calc g.hunk_new_start - 1 ≤ s.current_hunk_start_line := hCS
              _ ≤ t.current_hunk_start_line := eCS
          · rcases hucase with ⟨_, _, hcu, _⟩ | ⟨_, _, hane, _, _, n, rest, hnum, hcu⟩
            · rw [ghostUpdate_metas_of_same l s u g (by rw [hcu, eSug]), hcu, eSug]
              exact hL
            · rw [ghostUpdate_metas_of_append l s u g _ (by rw [hcu, eSug]), hcu, eSug]
              simp [hL]
          · rcases hucase with ⟨_, _, hcu, _⟩ | ⟨_, _, hane, _, _, n, rest, hnum, hcu⟩
            · rw [ghostUpdate_metas_of_same l s u g (by rw [hcu, eSug]), hcu, eSug]
              exact hEM
            · rw [ghostUpdate_metas_of_append l s u g _ (by rw [hcu, eSug]), hcu, eSug]
              intro p hp
              rcases mem_zip_snoc s.suggestions g.metas _ _ hL.symm p hp with hold | hpe
              · exact hEM p hold
              · rw [hpe]
                show g.hunk_new_start ≤ n
                have hsne : s.added_lines ≠ [] := by rw [← eAdd]; exact hane
                obtain ⟨_, _, hhd⟩ := hP5 hsne
                have hn' : s.added_line_numbers.head? = some n := by
                  rw [← eNum, hnum]
                  rfl
                exact hhd n hn'

/-- C5 counterexample: in the diff `"+a\ndiff --git a/x b/x\n@@ -1,1 +100,2 @@\n c"`
the only hunk header has `newStart = 100`, yet the parser emits a
suggestion anchored at line `0` (the pre-header addition block leaks
into the file and is emitted inside that hunk), so a suggestion's
`line` can be smaller than the `newStart` of the hunk it was drawn
from. -/
theorem c5_counterexample :
    ∃ sug meta,
      Wsp.gParse "+a\ndiff --git a/x b/x\n@@ -1,1 +100,2 @@\n c" =
        .ok ([sug], [meta]) ∧
      sug.line < meta.gNewStart :=
  ⟨⟨"x", 0, ["a"], 1, "@@ -1,1 +100,2 @@\n c", false⟩, ⟨100, some 0, false⟩,
    by decide, by decide⟩

/-- C5 (amended): over well-formed diff line lists (every addition
line occurs after a non-empty-path file header and after a hunk
header of its file — all git-produced diffs qualify), the
ghost-instrumented parse succeeds, agrees with `parse_diff`, and
every emitted suggestion's `line` is at least the `newStart` of the
hunk it was drawn from. -/
theorem c5_amended (diff_text : String)
    (hwf : Wsp.wfLines (PyStr.pySplitlines diff_text) false false = true) :
    ∃ sugs metas, Wsp.gParse diff_text = .ok (sugs, metas) ∧
      Wsp.parse_diff diff_text = .ok sugs ∧
      metas.length = sugs.length ∧
      ∀ p ∈ sugs.zip metas, p.2.gNewStart ≤ p.1.line := by
  have hInv : Wsp.C5Inv false false Wsp.initState ⟨0, none, []⟩ := by
    refine ⟨initState_master, ?_, ?_, ?_, ?_, ?_, ?_, ?_⟩
    · intro h
      exact absurd h (by decide)
    · intro h
      exact absurd h (by decide)
    · intro _
      rfl
    · intro h
      exact absurd rfl h
    · show (0 : Int) - 1 ≤ 0
      decide
    · rfl
    · intro p h
      exact absurd h (List.not_mem_nil _)
  obtain ⟨s, g, hrun, hM, hP2, hP5, hL, hEM⟩ :=
    gRun_C5 (PyStr.pySplitlines diff_text) false false Wsp.initState ⟨0, none, []⟩
      hwf hInv
  obtain ⟨t, het, tf1, tf2, tf3, tf4, tf5, tf6, tf7, hcase⟩ :=
    emitPending_spec (s.position_in_hunk - s.added_lines.length + 1) s hM.1
  have hfin : Wsp.finishParse s = .ok t := by
    unfold Wsp.finishParse
    exact het
  have hgf : Wsp.gFinish (s, g) = .ok (t, { g with
      metas := if s.suggestions.length < t.suggestions.length then
          g.metas ++ [⟨g.hunk_new_start, g.block_first_pos, false⟩]
        else g.metas }) := by
    unfold Wsp.gFinish
    rw [hfin]
  have hgp : Wsp.gParse diff_text = .ok (Wsp.classify t,
      if s.suggestions.length < t.suggestions.length then
        g.metas ++ [⟨g.hunk_new_start, g.block_first_pos, false⟩]
      else g.metas) := by
    unfold Wsp.gParse
    rw [hrun]
    show (match Wsp.gFinish (s, g) with
      | Except.error e => Except.error e
      | Except.ok (u, g2) => Except.ok (Wsp.classify u, g2.metas)) = _
    rw [hgf]
  rcases hcase with ⟨hta, htb, hcs, _⟩ | ⟨hta, htb, hane, _, _, n, rest, hnum, hcs⟩
  · have hmet : (if s.suggestions.length < t.suggestions.length then
        g.metas ++ [⟨g.hunk_new_start, g.block_first_pos, false⟩]
      else g.metas) = g.metas := by
      rw [hcs, if_neg (Nat.lt_irrefl _)]
    rw [hmet] at hgp
    refine ⟨Wsp.classify t, g.metas, hgp, gParse_fst diff_text _ _ hgp, ?_, ?_⟩
    · simp only [Wsp.classify, List.length_map, hcs]
      exact hL
    · intro p hp
      unfold Wsp.classify at hp
      rw [List.zip_map_left, List.mem_map] at hp
      obtain ⟨q, hq, hpe⟩ := hp
      obtain ⟨q1, q2⟩ := q
      subst hpe
      show q2.gNewStart ≤ q1.line
      rw [hcs] at hq
      exact hEM (q1, q2) hq
  · have hmet : (if s.suggestions.length < t.suggestions.length then
        g.metas ++ [⟨g.hunk_new_start, g.block_first_pos, false⟩]
      else g.metas) = g.metas ++ [⟨g.hunk_new_start, g.block_first_pos, false⟩] := by
      rw [hcs, if_pos (by simp)]
    rw [hmet] at hgp
    refine ⟨Wsp.classify t, _, hgp, gParse_fst diff_text _ _ hgp, ?_, ?_⟩
    · simp only [Wsp.classify, List.length_map, hcs]
      simp [hL]
    · intro p hp
      unfold Wsp.classify at hp
      rw [List.zip_map_left, List.mem_map] at hp
      obtain ⟨q, hq, hpe⟩ := hp
      obtain ⟨q1, q2⟩ := q
      subst hpe
      show q2.gNewStart ≤ q1.line
      rw [hcs] at hq
      rcases mem_zip_snoc s.suggestions g.metas _ _ hL.symm (q1, q2) hq with hold | hqe
      · exact hEM (q1, q2) hold
      · have hq1 : q1 = Wsp.mkSuggestion s n
            (s.position_in_hunk - s.added_lines.length + 1) :=
          congrArg Prod.fst hqe
        have hq2 : q2 = (⟨g.hunk_new_start, g.block_first_pos, false⟩ : Wsp.GMeta) :=
          congrArg Prod.snd hqe
        rw [hq1, hq2]
        show g.hunk_new_start ≤ n
        obtain ⟨_, _, hhd⟩ := hP5 hane
        exact hhd n (by rw [hnum]; rfl)

/-- Witness for C5 amended: a well-formed diff whose hunk starts at
new-file line 10; its single suggestion is anchored at line 11 ≥ 10. -/
theorem c5_amended_witness :
    Wsp.wfLines (PyStr.pySplitlines
      "diff --git a/f b/f\n@@ -3,2 +10,3 @@\n line1\n+added1\n line2\n")
      false false = true ∧
    ∃ sugs metas, Wsp.gParse
        "diff --git a/f b/f\n@@ -3,2 +10,3 @@\n line1\n+added1\n line2\n" =
        .ok (sugs, metas) ∧
      Wsp.parse_diff
        "diff --git a/f b/f\n@@ -3,2 +10,3 @@\n line1\n+added1\n line2\n" =
        .ok sugs ∧
      metas.length = sugs.length ∧
      ∀ p ∈ sugs.zip metas, p.2.gNewStart ≤ p.1.line :=
  ⟨by decide, c5_amended
    "diff --git a/f b/f\n@@ -3,2 +10,3 @@\n line1\n+added1\n line2\n" (by decide)⟩

/-- The position counter increments by exactly one when positive. -/
theorem posBump_val (s : Wsp.PState) (h : 0 < s.position_in_hunk) :
    (Wsp.posBump s).position_in_hunk = s.position_in_hunk + 1 := by
  unfold Wsp.posBump
  split
  · rfl
  · rename_i hc
    exact absurd h hc

/-- Over a well-formed line list without whitespace-only additions,
the ghost-instrumented loop maintains the recorded first position of
the pending block and the position law of every emitted suggestion:
`gFirstPos` is the suggestion's `position` for blocks closed by an
ordinary line, and `position - len + 1` for blocks closed by a
header. -/
theorem gRun_C3 (ls : List String) (fs hs : Bool) (s : Wsp.PState) (g : Wsp.Ghost)
    (hwf : Wsp.wfLines ls fs hs = true) (hnw : Wsp.noWsAdds ls = true)
    (hInv : Wsp.C3Inv fs hs s g) :
    ∃ s' g', Wsp.gRun ls (s, g) = .ok (s', g') ∧ Wsp.MasterInv s' ∧
      (s'.added_lines = [] → s'.added_line_numbers = []) ∧
      (s'.added_lines ≠ [] → s'.current_file ≠ "" ∧ s'.current_diff_hunk ≠ [] ∧
        0 < s'.position_in_hunk ∧
        g'.block_first_pos =
          some (s'.position_in_hunk - s'.added_lines.length + 1)) ∧
      g'.metas.length = s'.suggestions.length ∧
      (∀ p ∈ s'.suggestions.zip g'.metas,
        p.2.gFirstPos = some (if p.2.gByHeader then
          p.1.position - p.1.suggestion.length + 1 else p.1.position)) := by
  induction ls generalizing fs hs s g with
  | nil =>
    obtain ⟨hM, hF, hH, hP2, hP3, hL, hEM⟩ := hInv
    exact ⟨s, g, rfl, hM, hP2, hP3, hL, hEM⟩
  | cons l ls ih =>
    obtain ⟨hM, hF, hH, hP2, hP3, hL, hEM⟩ := hInv
    obtain ⟨h1, h2, h3, h4⟩ := hM
    have hnw0 : ((!Wsp.isAddLine l ||
        !(PyStr.pyStrip (PyStr.pyDropChars l 1) == "")) && Wsp.noWsAdds ls) = true := hnw
    rw [Bool.and_eq_true] at hnw0
    obtain ⟨hnwH, hnwT⟩ := hnw0
    unfold Wsp.wfLines at hwf
    cases hfm : Wsp.fileHeaderMatch l with
    | some f =>
      rw [hfm, Bool.and_eq_true] at hwf
      have hf : f ≠ "" := by simpa using hwf.1
      have hhm : Wsp.hunkHeaderMatch l = none := hunkHeaderMatch_none_of_file l f hfm
      obtain ⟨t, het, tf1, tf2, tf3, tf4, tf5, tf6, tf7, hcase⟩ :=
        emitPending_spec s.position_in_hunk s h1
      have htempty : t.added_lines = [] ∧ t.added_line_numbers = [] := by
        rcases hcase with ⟨ha, hb, _, hdisj⟩ | ⟨ha, hb, _⟩
        · have hsadd : s.added_lines = [] := by
            rcases hdisj with hd | hd | hd
            · exact hd
            · by_contra hne
              exact absurd hd (hP3 hne).1
            · by_contra hne
              exact absurd hd (hP3 hne).2.1
          exact ⟨ha.trans hsadd, hb.trans (hP2 hsadd)⟩
        · exact ⟨ha, hb⟩
      have hstep0 : Wsp.stepLine l s = .ok { t with
          current_file := f
          modified_files := Wsp.dictEnsureKey t.modified_files f
          current_diff_hunk := []
          removed_line := none
          removed_line_number := 0 } := by
        rw [stepLine_eq_file l s f hfm, het]
      obtain ⟨w, hstep, wSug, wFile, wCS, wPos, wAdd, wNum, wHunk, wMod⟩ :
          ∃ w, Wsp.stepLine l s = .ok w ∧
            w.suggestions = t.suggestions ∧
            w.current_file = f ∧
            w.current_hunk_start_line = t.current_hunk_start_line ∧
            w.position_in_hunk = t.position_in_hunk ∧
            w.added_lines = t.added_lines ∧
            w.added_line_numbers = t.added_line_numbers ∧
            w.current_diff_hunk = ([] : List String) ∧
            w.modified_files = Wsp.dictEnsureKey t.modified_files f :=
        ⟨_, hstep0, rfl, rfl, rfl, rfl, rfl, rfl, rfl, rfl⟩
      rw [gRun_cons_of_step l ls s w g hstep]
      refine ih true false w (Wsp.ghostUpdate l s w g) hwf.2 hnwT
        ⟨⟨?_, ?_, ?_, ?_⟩, ?_, ?_, ?_, ?_, ?_, ?_⟩
      · intro hne
        rw [wAdd, htempty.1] at hne
        exact absurd rfl hne
      · intro _
        rw [wFile, wMod]
        exact dictHasKey_ensure_self t.modified_files f
      · rw [wSug]
        rcases hcase with ⟨_, _, hcs, _⟩ | ⟨_, _, hane, _, _, n, rest, hnum, hcs⟩
        · rw [hcs]
          exact h3
        · rw [hcs]
          intro sug hmem
          rcases List.mem_append.mp hmem with hold | hnew
          · exact h3 sug hold
          · rw [List.mem_singleton] at hnew
            subst hnew
            exact ⟨hane, h4⟩
      · rw [wAdd, htempty.1]
        intro c hc
        cases hc
      · intro _
        rw [wFile]
        exact hf
      · intro hcontra
        exact absurd hcontra (by decide)
      · intro _
        rw [wNum, htempty.2]
      · intro hne
        rw [wAdd, htempty.1] at hne
        exact absurd rfl hne
      · rcases hcase with ⟨_, _, hcs, _⟩ | ⟨_, _, hane, _, _, n, rest, hnum, hcs⟩
        · rw [ghostUpdate_metas_of_same l s w g (by rw [wSug, hcs]), wSug, hcs]
          exact hL
        · rw [ghostUpdate_metas_of_append l s w g _ (by rw [wSug, hcs]), wSug, hcs]
          simp [hL]
      · rcases hcase with ⟨_, _, hcs, _⟩ | ⟨_, _, hane, _, _, n, rest, hnum, hcs⟩
        · rw [ghostUpdate_metas_of_same l s w g (by rw [wSug, hcs]), wSug, hcs]
          exact hEM
        · rw [ghostUpdate_metas_of_append l s w g _ (by rw [wSug, hcs]),
            isHeaderLine_of_file l f hfm, wSug, hcs]
          intro p hp
          rcases mem_zip_snoc s.suggestions g.metas _ _ hL.symm p hp with hold | hpe
          · exact hEM p hold
          · rw [hpe]
            show g.block_first_pos =
              some (s.position_in_hunk - (s.added_lines.length : Int) + 1)
            exact (hP3 hane).2.2.2
    | none =>
      cases hhm : Wsp.hunkHeaderMatch l with
      | some pr =>
        obtain ⟨o, ns⟩ := pr
        rw [hfm, hhm] at hwf
        have hwfh : Wsp.wfLines ls fs fs = true := hwf
        obtain ⟨t, het, tf1, tf2, tf3, tf4, tf5, tf6, tf7, hcase⟩ :=
          emitPending_spec s.position_in_hunk s h1
        have htempty : t.added_lines = [] ∧ t.added_line_numbers = [] := by
          rcases hcase with ⟨ha, hb, _, hdisj⟩ | ⟨ha, hb, _⟩
          · have hsadd : s.added_lines = [] := by
              rcases hdisj with hd | hd | hd
              · exact hd
              · by_contra hne
                exact absurd hd (hP3 hne).1
              · by_contra hne
                exact absurd hd (hP3 hne).2.1
            exact ⟨ha.trans hsadd, hb.trans (hP2 hsadd)⟩
          · exact ⟨ha, hb⟩
        have hstep0 : Wsp.stepLine l s = .ok { t with
            current_hunk_start_line := (ns : Int) - 1
            position_in_hunk := 1
            current_diff_hunk := [l]
            removed_line := none
            removed_line_number := (o : Int) - 1 } := by
          rw [stepLine_eq_hunk l s o ns hfm hhm, het]
        obtain ⟨w, hstep, wSug, wFile, wCS, wPos, wAdd, wNum, wHunk, wMod⟩ :
            ∃ w, Wsp.stepLine l s = .ok w ∧
              w.suggestions = t.suggestions ∧
              w.current_file = t.current_file ∧
              w.current_hunk_start_line = (ns : Int) - 1 ∧
              w.position_in_hunk = 1 ∧
              w.added_lines = t.added_lines ∧
              w.added_line_numbers = t.added_line_numbers ∧
              w.current_diff_hunk = [l] ∧
              w.modified_files = t.modified_files :=
          ⟨_, hstep0, rfl, rfl, rfl, rfl, rfl, rfl, rfl, rfl⟩
        rw [gRun_cons_of_step l ls s w g hstep]
        refine ih fs fs w (Wsp.ghostUpdate l s w g) hwfh hnwT
          ⟨⟨?_, ?_, ?_, ?_⟩, ?_, ?_, ?_, ?_, ?_, ?_⟩
        · intro hne
          rw [wAdd, htempty.1] at hne
          exact absurd rfl hne
        · intro hfe
          rw [wFile, tf1] at hfe
          rw [wFile, wMod, tf1, tf5]
          exact h2 hfe
        · rw [wSug]
          rcases hcase with ⟨_, _, hcs, _⟩ | ⟨_, _, hane, _, _, n, rest, hnum, hcs⟩
          · rw [hcs]
            exact h3
          · rw [hcs]
            intro sug hmem
            rcases List.mem_append.mp hmem with hold | hnew
            · exact h3 sug hold
            · rw [List.mem_singleton] at hnew
              subst hnew
              exact ⟨hane, h4⟩
        · rw [wAdd, htempty.1]
          intro c hc
          cases hc
        · intro hfs
          rw [wFile, tf1]
          exact hF hfs
        · intro _
          rw [wPos, wHunk]
          refine ⟨by decide, by simp⟩
        · intro _
          rw [wNum, htempty.2]
        · intro hne
          rw [wAdd, htempty.1] at hne
          exact absurd rfl hne
        · rcases hcase with ⟨_, _, hcs, _⟩ | ⟨_, _, hane, _, _, n, rest, hnum, hcs⟩
          · rw [ghostUpdate_metas_of_same l s w g (by rw [wSug, hcs]), wSug, hcs]
            exact hL
          · rw [ghostUpdate_metas_of_append l s w g _ (by rw [wSug, hcs]), wSug, hcs]
            simp [hL]
        · rcases hcase with ⟨_, _, hcs, _⟩ | ⟨_, _, hane, _, _, n, rest, hnum, hcs⟩
          · rw [ghostUpdate_metas_of_same l s w g (by rw [wSug, hcs]), wSug, hcs]
            exact hEM
          · rw [ghostUpdate_metas_of_append l s w g _ (by rw [wSug, hcs]),
              isHeaderLine_of_hunk l (o, ns) hfm hhm, wSug, hcs]
            intro p hp
            rcases mem_zip_snoc s.suggestions g.metas _ _ hL.symm p hp with hold | hpe
            · exact hEM p hold
            · rw [hpe]
              show g.block_first_pos =
                some (s.position_in_hunk - (s.added_lines.length : Int) + 1)
              exact (hP3 hane).2.2.2
      | none =>
        rw [hfm, hhm] at hwf
        have hwf0 : (if Wsp.isAddLine l = true then fs && hs && Wsp.wfLines ls fs hs
            else Wsp.wfLines ls fs hs) = true := hwf
        obtain ⟨hcs, hcf, hccs, hcp, hca, hcn, hcm, hcr, hcrn⟩ := hunkCollect_fields l s
        obtain ⟨hbs, hbf, hbcs, hbh, hba, hbn, hbm, hbr, hbrn⟩ :=
          posBump_fields (Wsp.hunkCollect l s)
        have h2' : (Wsp.posBump (Wsp.hunkCollect l s)).current_file ≠ "" →
            Wsp.dictHasKey (Wsp.posBump (Wsp.hunkCollect l s)).modified_files
              (Wsp.posBump (Wsp.hunkCollect l s)).current_file = true := by
          rw [hbf, hcf, hbm, hcm]
          exact h2
        obtain ⟨t, hts, t1, t2, t3, t4, t5, t6, t7, t8, t9, t10⟩ :=
          trackModified_spec l (Wsp.posBump (Wsp.hunkCollect l s)) h2'
        have hstep0 : Wsp.stepLine l s = Wsp.collectAdded l t := by
          rw [stepLine_eq_other l s hfm hhm, hts]
        have eAdd : t.added_lines = s.added_lines := by rw [t5, hba, hca]
        have eNum : t.added_line_numbers = s.added_line_numbers := by rw [t6, hbn, hcn]
        have eSug : t.suggestions = s.suggestions := by rw [t1, hbs, hcs]
        have eFile : t.current_file = s.current_file := by rw [t2, hbf, hcf]
        have eKey : ∀ k, Wsp.dictHasKey t.modified_files k =
            Wsp.dictHasKey s.modified_files k := by
          intro k
          rw [t8 k, hbm, hcm]
        have ePos : 0 < t.position_in_hunk ↔ 0 < s.position_in_hunk := by
          rw [t3, posBump_pos, hcp]
        have eHunkNe : s.current_diff_hunk ≠ [] → t.current_diff_hunk ≠ [] := by
          intro hne hc
          rw [t4, hbh] at hc
          exact hne ((hunkCollect_hunk_empty l s).mp hc)
        cases hia : Wsp.isAddLine l with
        | true =>
          have hwf1 : (fs && hs && Wsp.wfLines ls fs hs) = true := by
            rw [hia] at hwf0
            simpa using hwf0
          rw [Bool.and_eq_true, Bool.and_eq_true] at hwf1
          obtain ⟨⟨hfs, hhs⟩, hwf'⟩ := hwf1
          have hfileS : s.current_file ≠ "" := hF hfs
          obtain ⟨hposS, hhunkS⟩ := hH hhs
          have hposT : t.position_in_hunk = s.position_in_hunk + 1 := by
            rw [t3, posBump_val _ (by rw [hcp]; exact hposS), hcp]
          have hws : ¬(PyStr.pyStrip (PyStr.pyDropChars l 1) = "") := by
            rw [hia] at hnwH
            simp only [Bool.not_true, Bool.false_or, Bool.not_eq_true',
              beq_eq_false_iff_ne] at hnwH
            exact hnwH
          by_cases hemp : t.added_lines = []
          · have hsadd : s.added_lines = [] := by rw [← eAdd]; exact hemp
            have hstep0' : Wsp.stepLine l s = .ok { t with
                added_line_numbers := t.added_line_numbers ++ [t.current_hunk_start_line]
                added_lines := t.added_lines ++ [PyStr.pyDropChars l 1] } := by
              rw [hstep0]
              exact collectAdded_first l t hia hws hemp
            obtain ⟨w, hstep, wSug, wFile, wCS, wPos, wAdd, wNum, wHunk, wMod⟩ :
                ∃ w, Wsp.stepLine l s = .ok w ∧
                  w.suggestions = t.suggestions ∧
                  w.current_file = t.current_file ∧
                  w.current_hunk_start_line = t.current_hunk_start_line ∧
                  w.position_in_hunk = t.position_in_hunk ∧
                  w.added_lines = t.added_lines ++ [PyStr.pyDropChars l 1] ∧
                  w.added_line_numbers
                    = t.added_line_numbers ++ [t.current_hunk_start_line] ∧
                  w.current_diff_hunk = t.current_diff_hunk ∧
                  w.modified_files = t.modified_files :=
              ⟨_, hstep0', rfl, rfl, rfl, rfl, rfl, rfl, rfl, rfl⟩
            rw [gRun_cons_of_step l ls s w g hstep]
            refine ih fs hs w (Wsp.ghostUpdate l s w g) hwf' hnwT
              ⟨⟨?_, ?_, ?_, ?_⟩, ?_, ?_, ?_, ?_, ?_, ?_⟩
            · intro _
              rw [wNum]
              simp
            · intro hfe
              rw [wFile, eFile] at hfe
              rw [wFile, wMod, eKey, eFile]
              exact h2 hfe
            · rw [wSug, eSug]
              exact h3
            · rw [wAdd]
              intro c hc
              rcases List.mem_append.mp hc with hold | hnew
              · rw [eAdd] at hold
                exact h4 c hold
              · rw [List.mem_singleton] at hnew
                subst hnew
                exact hws
            · intro _
              rw [wFile, eFile]
              exact hfileS
            · intro hh
              obtain ⟨hp, hd⟩ := hH hh
              rw [wPos, wHunk]
              exact ⟨ePos.mpr hp, eHunkNe hd⟩
            · intro hc
              rw [wAdd] at hc
              exact absurd hc (by simp)
            · intro _
              refine ⟨by rw [wFile, eFile]; exact hfileS,
                by rw [wHunk]; exact eHunkNe hhunkS, ?_, ?_⟩
              · rw [wPos, hposT]
                omega
              · rw [ghostUpdate_bfp_opened l s w g (by rw [wAdd]; simp)
                  (by rw [← eAdd]; exact hemp), wAdd, hemp]
                simp only [List.nil_append, List.length_cons, List.length_nil,
                  Option.some.injEq]
                omega
            · rw [ghostUpdate_metas_of_same l s w g (by rw [wSug, eSug]), wSug, eSug]
              exact hL
            · rw [ghostUpdate_metas_of_same l s w g (by rw [wSug, eSug]), wSug, eSug]
              exact hEM
          · have hsadd : s.added_lines ≠ [] := by rw [← eAdd]; exact hemp
            have hstep0' : Wsp.stepLine l s = .ok { t with
                added_lines := t.added_lines ++ [PyStr.pyDropChars l 1] } := by
              rw [hstep0]
              exact collectAdded_next l t hia hws hemp
            obtain ⟨w, hstep, wSug, wFile, wCS, wPos, wAdd, wNum, wHunk, wMod⟩ :
                ∃ w, Wsp.stepLine l s = .ok w ∧
                  w.suggestions = t.suggestions ∧
                  w.current_file = t.current_file ∧
                  w.current_hunk_start_line = t.current_hunk_start_line ∧
                  w.position_in_hunk = t.position_in_hunk ∧
                  w.added_lines = t.added_lines ++ [PyStr.pyDropChars l 1] ∧
                  w.added_line_numbers = t.added_line_numbers ∧
                  w.current_diff_hunk = t.current_diff_hunk ∧
                  w.modified_files = t.modified_files :=
              ⟨_, hstep0', rfl, rfl, rfl, rfl, rfl, rfl, rfl, rfl⟩
            rw [gRun_cons_of_step l ls s w g hstep]
            obtain ⟨hf', hd', hpos', hbfp⟩ := hP3 hsadd
            refine ih fs hs w (Wsp.ghostUpdate l s w g) hwf' hnwT
              ⟨⟨?_, ?_, ?_, ?_⟩, ?_, ?_, ?_, ?_, ?_, ?_⟩
            · intro _
              rw [wNum, eNum]
              exact h1 hsadd
            · intro hfe
              rw [wFile, eFile] at hfe
              rw [wFile, wMod, eKey, eFile]
              exact h2 hfe
            · rw [wSug, eSug]
              exact h3
            · rw [wAdd]
              intro c hc
              rcases List.mem_append.mp hc with hold | hnew
              · rw [eAdd] at hold
                exact h4 c hold
              · rw [List.mem_singleton] at hnew
                subst hnew
                exact hws
            · intro _
              rw [wFile, eFile]
              exact hfileS
            · intro hh
              obtain ⟨hp, hd⟩ := hH hh
              rw [wPos, wHunk]
              exact ⟨ePos.mpr hp, eHunkNe hd⟩
            · intro hc
              rw [wAdd] at hc
              exact absurd hc (by simp)
            · intro _
              refine ⟨by rw [wFile, eFile]; exact hf',
                by rw [wHunk]; exact eHunkNe hd', ?_, ?_⟩
              · rw [wPos, hposT]
                omega
              · rw [ghostUpdate_bfp_cont l s w g (by rw [wAdd]; simp) hsadd,
                  hbfp, wPos, hposT, wAdd, eAdd]
                simp only [List.length_append, List.length_cons, List.length_nil,
                  Option.some.injEq]
                omega
            · rw [ghostUpdate_metas_of_same l s w g (by rw [wSug, eSug]), wSug, eSug]
              exact hL
            · rw [ghostUpdate_metas_of_same l s w g (by rw [wSug, eSug]), wSug, eSug]
              exact hEM
        | false =>
          have hwf' : Wsp.wfLines ls fs hs = true := by
            rw [hia] at hwf0
            simpa using hwf0
          have ht1 : t.added_lines ≠ [] → t.added_line_numbers ≠ [] := by
            rw [eAdd, eNum]
            exact h1
          obtain ⟨u, heu, uf1, uf2, uf3, uf4, uf5, uf6, uf7, hucase⟩ :=
            emitPending_spec (t.position_in_hunk - t.added_lines.length) t ht1
          have hstep : Wsp.stepLine l s = .ok u := by
            rw [hstep0, collectAdded_other l t hia]
            exact heu
          rw [gRun_cons_of_step l ls s u g hstep]
          have huadd : u.added_lines = [] := by
            rcases hucase with ⟨ha, _, _, hdisj⟩ | ⟨ha, _, _⟩
            · have hsadd : s.added_lines = [] := by
                rcases hdisj with hd | hd | hd
                · rw [← eAdd]
                  exact hd
                · by_contra hne
                  rw [eFile] at hd
                  exact absurd hd (hP3 hne).1
                · by_contra hne
                  exact absurd hd (eHunkNe (hP3 hne).2.1)
              rw [ha, eAdd]
              exact hsadd
            · exact ha
          refine ih fs hs u (Wsp.ghostUpdate l s u g) hwf' hnwT
            ⟨⟨?_, ?_, ?_, ?_⟩, ?_, ?_, ?_, ?_, ?_, ?_⟩
          · intro hne
            rw [huadd] at hne
            exact absurd rfl hne
          · intro hfe
            rw [uf1, eFile] at hfe
            rw [uf1, uf5, eKey, eFile]
            exact h2 hfe
          · rcases hucase with ⟨_, _, hcu, _⟩ | ⟨_, _, hane, _, _, n, rest, hnum, hcu⟩
            · rw [hcu, eSug]
              exact h3
            · rw [hcu]
              intro sug hmem
              rcases List.mem_append.mp hmem with hold | hnew
              · rw [eSug] at hold
                exact h3 sug hold
              · rw [List.mem_singleton] at hnew
                subst hnew
                refine ⟨hane, ?_⟩
                intro c hc
                have hc' : c ∈ t.added_lines := hc
                rw [eAdd] at hc'
                exact h4 c hc'
          · rw [huadd]
            intro c hc
            cases hc
          · intro hfs
            rw [uf1, eFile]
            exact hF hfs
          · intro hh
            obtain ⟨hp, hd⟩ := hH hh
            rw [uf3, uf4]
            exact ⟨ePos.mpr hp, eHunkNe hd⟩
          · intro _
            rcases hucase with ⟨ha, hb, _, _⟩ | ⟨ha, hb, _⟩
            · rw [hb, eNum]
              apply hP2
              rw [← eAdd, ← ha, huadd]
            · rw [hb]
          · intro hne
            rw [huadd] at hne
            exact absurd rfl hne
          · rcases hucase with ⟨_, _, hcu, _⟩ | ⟨_, _, hane, _, _, n, rest, hnum, hcu⟩
            · rw [ghostUpdate_metas_of_same l s u g (by rw [hcu, eSug]), hcu, eSug]
              exact hL
            · rw [ghostUpdate_metas_of_append l s u g _ (by rw [hcu, eSug]), hcu, eSug]
              simp [hL]
          · rcases hucase with ⟨_, _, hcu, _⟩ | ⟨_, _, hane, _, _, n, rest, hnum, hcu⟩
            · rw [ghostUpdate_metas_of_same l s u g (by rw [hcu, eSug]), hcu, eSug]
              exact hEM
            · rw [ghostUpdate_metas_of_append l s u g _ (by rw [hcu, eSug]),
                isHeaderLine_of_other l hfm hhm, hcu, eSug]
              intro p hp
              rcases mem_zip_snoc s.suggestions g.metas _ _ hL.symm p hp with hold | hpe
              · exact hEM p hold
              · rw [hpe]
                show g.block_first_pos =
                  some (t.position_in_hunk - (t.added_lines.length : Int))
                have hsadd2 : s.added_lines ≠ [] := by rw [← eAdd]; exact hane
                obtain ⟨hf3, hd3, hpos3, hbfp3⟩ := hP3 hsadd2
                have hposT : t.position_in_hunk = s.position_in_hunk + 1 := by
                  rw [t3, posBump_val _ (by rw [hcp]; exact hpos3), hcp]
                rw [hbfp3, hposT, eAdd]
                simp only [Option.some.injEq]
                omega

/-- C3 (amended): over well-formed diff line lists without
whitespace-only addition lines, the ghost-instrumented parse succeeds,
agrees with `parse_diff`, and every emitted suggestion's recorded
first-addition position `gFirstPos` (the value of the
`position_in_hunk` counter at the block's first addition line, with
the hunk header counted as position 1 and the first body line as 2)
satisfies: `position = gFirstPos` for blocks closed by an ordinary
line or by end of input, while `position = gFirstPos + len - 1` (the
counter at the block's last line, unadjusted) for blocks closed by a
file or hunk header. -/
theorem c3_amended (diff_text : String)
    (hwf : Wsp.wfLines (PyStr.pySplitlines diff_text) false false = true)
    (hnw : Wsp.noWsAdds (PyStr.pySplitlines diff_text) = true) :
    ∃ sugs metas, Wsp.gParse diff_text = .ok (sugs, metas) ∧
      Wsp.parse_diff diff_text = .ok sugs ∧
      metas.length = sugs.length ∧
      ∀ p ∈ sugs.zip metas,
        p.2.gFirstPos = some (if p.2.gByHeader then
          p.1.position - p.1.suggestion.length + 1 else p.1.position) := by
  have hInv : Wsp.C3Inv false false Wsp.initState ⟨0, none, []⟩ := by
    refine ⟨initState_master, ?_, ?_, ?_, ?_, ?_, ?_⟩
    · intro h
      exact absurd h (by decide)
    · intro h
      exact absurd h (by decide)
    · intro _
      rfl
    · intro h
      exact absurd rfl h
    · rfl
    · intro p h
      exact absurd h (List.not_mem_nil _)
  obtain ⟨s, g, hrun, hM, hP2, hP3, hL, hEM⟩ :=
    gRun_C3 (PyStr.pySplitlines diff_text) false false Wsp.initState ⟨0, none, []⟩
      hwf hnw hInv
  obtain ⟨t, het, tf1, tf2, tf3, tf4, tf5, tf6, tf7, hcase⟩ :=
    emitPending_spec (s.position_in_hunk - s.added_lines.length + 1) s hM.1
  have hfin : Wsp.finishParse s = .ok t := by
    unfold Wsp.finishParse
    exact het
  have hgf : Wsp.gFinish (s, g) = .ok (t, { g with
      metas := if s.suggestions.length < t.suggestions.length then
          g.metas ++ [⟨g.hunk_new_start, g.block_first_pos, false⟩]
        else g.metas }) := by
    unfold Wsp.gFinish
    rw [hfin]
  have hgp : Wsp.gParse diff_text = .ok (Wsp.classify t,
      if s.suggestions.length < t.suggestions.length then
        g.metas ++ [⟨g.hunk_new_start, g.block_first_pos, false⟩]
      else g.metas) := by
    unfold Wsp.gParse
    rw [hrun]
    show (match Wsp.gFinish (s, g) with
      | Except.error e => Except.error e
      | Except.ok (u, g2) => Except.ok (Wsp.classify u, g2.metas)) = _
    rw [hgf]
  rcases hcase with ⟨hta, htb, hcs, _⟩ | ⟨hta, htb, hane, _, _, n, rest, hnum, hcs⟩
  · have hmet : (if s.suggestions.length < t.suggestions.length then
        g.metas ++ [⟨g.hunk_new_start, g.block_first_pos, false⟩]
      else g.metas) = g.metas := by
      rw [hcs, if_neg (Nat.lt_irrefl _)]
    rw [hmet] at hgp
    refine ⟨Wsp.classify t, g.metas, hgp, gParse_fst diff_text _ _ hgp, ?_, ?_⟩
    · simp only [Wsp.classify, List.length_map, hcs]
      exact hL
    · intro p hp
      unfold Wsp.classify at hp
      rw [List.zip_map_left, List.mem_map] at hp
      obtain ⟨q, hq, hpe⟩ := hp
      obtain ⟨q1, q2⟩ := q
      subst hpe
      show q2.gFirstPos = some (if q2.gByHeader then
        q1.position - q1.suggestion.length + 1 else q1.position)
      rw [hcs] at hq
      exact hEM (q1, q2) hq
  · have hmet : (if s.suggestions.length < t.suggestions.length then
        g.metas ++ [⟨g.hunk_new_start, g.block_first_pos, false⟩]
      else g.metas) = g.metas ++ [⟨g.hunk_new_start, g.block_first_pos, false⟩] := by
      rw [hcs, if_pos (by simp)]
    rw [hmet] at hgp
    refine ⟨Wsp.classify t, _, hgp, gParse_fst diff_text _ _ hgp, ?_, ?_⟩
    · simp only [Wsp.classify, List.length_map, hcs]
      simp [hL]
    · intro p hp
      unfold Wsp.classify at hp
      rw [List.zip_map_left, List.mem_map] at hp
      obtain ⟨q, hq, hpe⟩ := hp
      obtain ⟨q1, q2⟩ := q
      subst hpe
      show q2.gFirstPos = some (if q2.gByHeader then
        q1.position - q1.suggestion.length + 1 else q1.position)
      rw [hcs] at hq
      rcases mem_zip_snoc s.suggestions g.metas _ _ hL.symm (q1, q2) hq with hold | hqe
      · exact hEM (q1, q2) hold
      · have hq1 : q1 = Wsp.mkSuggestion s n
            (s.position_in_hunk - s.added_lines.length + 1) :=
          congrArg Prod.fst hqe
        have hq2 : q2 = (⟨g.hunk_new_start, g.block_first_pos, false⟩ : Wsp.GMeta) :=
          congrArg Prod.snd hqe
        rw [hq1, hq2]
        show g.block_first_pos =
          some (s.position_in_hunk - (s.added_lines.length : Int) + 1)
        exact (hP3 hane).2.2.2

/-- Witness for C3 amended: in the two-addition diff the pending block
opens at counter value 3 (header = 1, ` line1` = 2, `+added1` = 3);
the block is closed by an ordinary line, and the suggestion indeed has
`position = 3 = gFirstPos`. -/
theorem c3_amended_witness :
    Wsp.wfLines (PyStr.pySplitlines
      "diff --git a/f b/f\n@@ -1,2 +1,3 @@\n line1\n+added1\n+added2\n line2\n")
      false false = true ∧
    Wsp.noWsAdds (PyStr.pySplitlines
      "diff --git a/f b/f\n@@ -1,2 +1,3 @@\n line1\n+added1\n+added2\n line2\n") = true ∧
    ∃ sugs metas, Wsp.gParse
        "diff --git a/f b/f\n@@ -1,2 +1,3 @@\n line1\n+added1\n+added2\n line2\n" =
        .ok (sugs, metas) ∧
      Wsp.parse_diff
        "diff --git a/f b/f\n@@ -1,2 +1,3 @@\n line1\n+added1\n+added2\n line2\n" =
        .ok sugs ∧
      metas.length = sugs.length ∧
      ∀ p ∈ sugs.zip metas,
        p.2.gFirstPos = some (if p.2.gByHeader then
          p.1.position - p.1.suggestion.length + 1 else p.1.position) :=
  ⟨by decide, by decide, c3_amended
    "diff --git a/f b/f\n@@ -1,2 +1,3 @@\n line1\n+added1\n+added2\n line2\n"
    (by decide) (by decide)⟩
